import Mathlib

/-!
Verification of the hexrec record library core: the record model
(`hexrec/records.py`), the Intel HEX, Motorola S-record and MOS Technology
format variants (`hexrec/formats/{intel,motorola,mos}.py`), and the
block-merge bridge.

Bytes are modelled as `Nat` (with explicit `% 256` / masking where the code
masks), byte buffers as `List Nat`, and Python exceptions as
`Except String`.  The helper modules `hexrec.blocks` (merge, union) and
`hexrec.utils` (chop, sum_bytes, do_overlap, hexlify, unhexlify) are not part
of the provided sources; the definitions embedding them are modelled from the
specification and are marked as such in their doc comments.
-/

namespace Hexrec

/-- A block: a start address paired with the bytes stored from there on. -/
abbrev Block := Nat × List Nat

/-- Exclusive end address of a block. -/
def blockEnd (b : Block) : Nat := b.1 + b.2.length

/-- `blockCovers b a` holds when address `a` falls inside block `b`. -/
def blockCovers (b : Block) (a : Nat) : Prop := b.1 ≤ a ∧ a < b.1 + b.2.length

instance (b : Block) (a : Nat) : Decidable (blockCovers b a) := by
  unfold blockCovers; infer_instance

/-- Byte stored at address `a` by a list of blocks; the first covering block
wins (for the non-overlapping lists considered here, at most one block can
cover any address). -/
def blocksAt : List Block → Nat → Option Nat
  | [], _ => none
  | b :: bs, a => if b.1 ≤ a ∧ a < b.1 + b.2.length then b.2[a - b.1]? else blocksAt bs a

/-- Modelled from the spec: byte-level union of several block sources where a
later (higher-priority) source overwrites earlier ones, as performed by
`hexrec.blocks.union` (not under the provided sources). -/
def unionAt : List (List Block) → Nat → Option Nat
  | [], _ => none
  | bs :: rest, a =>
    match unionAt rest a with
    | some v => some v
    | none => blocksAt bs a

/-- Least upper bound of the addresses covered by a block list. -/
def seqEnd (bs : List Block) : Nat := bs.foldr (fun b m => max (blockEnd b) m) 0

/-- Least upper bound of the addresses covered by any source. -/
def srcsEnd (ss : List (List Block)) : Nat := ss.foldr (fun bs m => max (seqEnd bs) m) 0

/-- Prepends the byte `v` at address `a` to a block list whose blocks all
start after `a`: it is merged into the first block when that one starts
exactly at `a + 1`, and forms a new singleton block otherwise. -/
def pushRun (a v : Nat) : List Block → List Block
  | [] => [(a, [v])]
  | (a', c) :: rest =>
    if a' = a + 1 then (a, v :: c) :: rest else (a, [v]) :: (a', c) :: rest

/-- Scans `n` consecutive addresses starting at `a` and collects the maximal
runs of consecutively covered addresses of the coverage function `f` into
blocks. -/
def scanBlocks (f : Nat → Option Nat) : Nat → Nat → List Block
  | _, 0 => []
  | a, n + 1 =>
    match f a with
    | none => scanBlocks f (a + 1) n
    | some v => pushRun a v (scanBlocks f (a + 1) n)

/-- Modelled from the spec: `hexrec.blocks.merge` composed with
`hexrec.blocks.union` (neither is under the provided sources).  Per the spec
the result is the non-overlapping, sorted, gap-preserving block sequence in
which later sources overwrite earlier ones byte by byte. -/
def mergeUnion (ss : List (List Block)) : List Block :=
  scanBlocks (unionAt ss) 0 (srcsEnd ss)

/-- Sorted and non-overlapping: each block ends no later than the next one
starts. -/
def seqWF : List Block → Bool
  | [] => true
  | [_] => true
  | b :: c :: rest => decide (b.1 + b.2.length ≤ c.1) && seqWF (c :: rest)

/-- All blocks carry at least one byte. -/
def seqNonempty (bs : List Block) : Bool := bs.all (fun b => !b.2.isEmpty)

/-- Modelled from the spec: `hexrec.utils.chop` (not under the provided
sources).  Chops `data` into chunks of at most `window` bytes; when
`alignBase` is nonzero the first chunk is shortened to `window - alignBase`
bytes so that the following chunk boundaries are aligned to `window`. -/
def chopGo (window : Nat) : Nat → List Nat → List (List Nat)
  | _, [] => []
  | 0, _ :: _ => []
  | fuel + 1, x :: xs => (x :: xs).take window :: chopGo window fuel ((x :: xs).drop window)

/-- Modelled from the spec: see `chopGo`. -/
def chop (data : List Nat) (window : Nat) (alignBase : Nat) : List (List Nat) :=
  let offset := if alignBase = 0 then 0 else window - alignBase
  let headChunk := data.take offset
  let rest := data.drop offset
  (if headChunk.isEmpty then [] else [headChunk]) ++ chopGo window rest.length rest

/-! ## The record entity (`hexrec.records.Record`) -/

/-- The record entity: one line of a hex file.  `tag` is `none` for the MOS
Technology format (which has no tag field) and `some t` with the numeric tag
value otherwise.  `checksum = none` models Python `None` (absent). -/
structure Rec where
  address : Nat
  tag : Option Nat
  data : List Nat
  count : Nat
  checksum : Option Nat
deriving DecidableEq

/-- `Record.__eq__` (records.py line 748): two records compare equal when
their `address`, `tag` and `data` fields coincide. -/
def recordEq (r1 r2 : Rec) : Bool :=
  r1.address == r2.address && r1.tag == r2.tag && r1.data == r2.data

/-- Tri-state checksum constructor argument: Python `Ellipsis` (compute now),
`None` (absent), or an explicit value. -/
inductive Cks where
  | auto
  | absent
  | given (v : Nat)

/-- `Record.__init__`: stores the fields, recomputes `count` via the
(format-specific) `compute_count`, then either computes the checksum
(`Ellipsis`), leaves it absent (`None`), or stores the explicit value. -/
def Rec.make (computeCount : Rec → Nat) (computeChecksum : Rec → Nat)
    (address : Nat) (tag : Option Nat) (data : List Nat) (cks : Cks) : Rec :=
  let r0 : Rec := ⟨address, tag, data, 0, none⟩
  let r1 : Rec := { r0 with count := computeCount r0 }
  match cks with
  | .auto => { r1 with checksum := some (computeChecksum r1) }
  | .absent => r1
  | .given v => { r1 with checksum := some v }

/-- `Record.check` (records.py line 956), shared by the Intel and Motorola
variants (the MOS variant overrides it completely).  The Python `address ≥ 0`
and `data is None` checks are vacuous in this embedding (`Nat` addresses,
always-present data).  `computeChecksum` is the format's overriding method
(dynamic dispatch); the callers below always have `tag = some t`. -/
def baseCheck (computeChecksum : Rec → Nat) (r : Rec) : Except String Unit := do
  if ¬ r.tag.getD 0 ≤ 0xFF then throw "tag overflow"
  if ¬ r.count ≤ 0xFF then throw "count overflow"
  match r.checksum with
  | none => pure ()
  | some c => do
    if ¬ c ≤ 0xFF then throw "checksum overflow"
    if c ≠ computeChecksum r then throw "checksum error"

/-- Modelled from the spec: `hexrec.utils.do_overlap` (not under the provided
sources); the spec describes it as the primitive interval overlap test. -/
def doOverlap (start1 endex1 start2 endex2 : Nat) : Bool :=
  decide (start2 < endex1) && decide (start1 < endex2)

/-- `Record.overlaps` (records.py line 981): overlap of the two records' data
intervals. -/
def overlaps (r other : Rec) : Bool :=
  doOverlap r.address (r.address + r.data.length) other.address
    (other.address + other.data.length)

/-- Loop of `Record.check_sequence` (records.py lines 1099-1115), carrying
the last data record seen and the running `record_endex`.  Parameterized by
the format's `check` and `is_data` (dynamic dispatch). -/
def baseCheckSeqGo (check : Rec → Except String Unit) (isData : Rec → Bool) :
    Option Rec → Nat → List Rec → Except String Unit
  | _, _, [] => pure ()
  | last, endex, r :: rest => do
    check r
    if isData r then do
      match last with
      | some l =>
        if overlaps r l then throw "overlapping records"
        if r.address < endex then throw "unsorted records"
      | none => pure ()
      baseCheckSeqGo check isData (some r) (r.address + r.data.length) rest
    else
      baseCheckSeqGo check isData last (r.address + r.data.length) rest

/-- `Record.check_sequence` (records.py line 1092). -/
def baseCheckSeq (check : Rec → Except String Unit) (isData : Rec → Bool)
    (records : List Rec) : Except String Unit :=
  baseCheckSeqGo check isData none 0 records

/-! ## MOS Technology variant (`hexrec/formats/mos.py`) -/

namespace Mos

/-- `Record.is_data` (mos.py line 67): a record is a data record iff its
count is positive. -/
def isData (r : Rec) : Bool := decide (0 < r.count)

/-- `Record.compute_checksum` (mos.py line 72), transcribed exactly: for
`count ≠ 0` the sum of `count`, `address >> 16`, `address & 0xFF` and the
data bytes, masked to 16 bits; for `count = 0` the `address` field itself. -/
def computeChecksum (r : Rec) : Nat :=
  if r.count ≠ 0 then
    (r.count + (r.address >>> 16) + (r.address &&& 0xFF) + r.data.sum) &&& 0xFFFF
  else
    r.address

/-- The MOS data-record checksum formula as written in the spec (§4.4):
count plus the high and low bytes of the 16-bit address plus the data sum,
modulo 2^16. -/
def specChecksum (r : Rec) : Nat :=
  (r.count + ((r.address >>> 8) &&& 0xFF) + (r.address &&& 0xFF) + r.data.sum) % 65536

/-- `Record.compute_count` is not overridden: base `len(data)`. -/
def computeCount (r : Rec) : Nat := r.data.length

/-- MOS `Record.__init__` as reached from the builders (no extra bounds). -/
def make (address : Nat) (data : List Nat) (cks : Cks) : Rec :=
  Rec.make computeCount computeChecksum address none data cks

/-- `Record.build_data` (mos.py line 109). -/
def buildData (address : Nat) (data : List Nat) : Rec := make address data .auto

/-- `Record.build_terminator` (mos.py line 129): the data-record count is
stored both in the address field and as the explicit checksum. -/
def buildTerminator (recordCount : Nat) : Rec := make recordCount [] (.given recordCount)

/-- `Record.check` (mos.py line 84); the `data is None` test is vacuous
here. -/
def check (r : Rec) : Except String Unit := do
  if ¬ r.address < 65536 then throw "address overflow"
  if r.tag ≠ none then throw "wrong tag"
  if ¬ r.count < 256 then throw "count overflow"
  if r.count ≠ r.data.length then throw "count error"
  match r.checksum with
  | none => pure ()
  | some c => do
    if ¬ c < 65536 then throw "checksum overflow"
    if c ≠ computeChecksum r then throw "checksum error"

/-- The chunk loop of `Record.split` (mos.py lines 191-194). -/
def splitLoop : Nat → List (List Nat) → List Rec
  | _, [] => []
  | offset, c :: cs => buildData offset c :: splitLoop (offset + c.length) cs

/-- `Record.split` (mos.py line 152). -/
def split (data : List Nat) (address columns : Nat) (align standalone : Bool) :
    Except String (List Rec) :=
  if ¬ address < 65536 then .error "address overflow"
  else if ¬ address + data.length ≤ 65536 then .error "size overflow"
  else if ¬ (0 < columns ∧ columns < 256) then .error "column overflow"
  else
    let alignBase := if align then address % columns else 0
    let chunks := chop data columns alignBase
    .ok (splitLoop address chunks ++
      if standalone then [buildTerminator chunks.length] else [])

/-- `Record.check_sequence` (mos.py line 249): the base sequence check, then
the last record's `address` and `checksum` fields must both equal the number
of preceding records (`records[-1]` is reached only on non-empty input). -/
def checkSequence (records : List Rec) : Except String Unit :=
  (baseCheckSeq check isData records).bind (fun _ =>
    if records.length < 1 then .error "missing terminator"
    else
      let recordCount := records.length - 1
      match records.getLast? with
      | none => .error "missing terminator"
      | some r =>
        if r.address ≠ recordCount ∨ r.checksum ≠ some recordCount then
          .error "wrong terminator"
        else .ok ())

end Mos

/-! ## Intel HEX variant (`hexrec/formats/intel.py`) -/

namespace Intel

/-- The Intel tag values (intel.py `Tag`). -/
def DATA : Nat := 0
def END_OF_FILE : Nat := 1
def EXTENDED_SEGMENT_ADDRESS : Nat := 2
def START_SEGMENT_ADDRESS : Nat := 3
def EXTENDED_LINEAR_ADDRESS : Nat := 4
def START_LINEAR_ADDRESS : Nat := 5

/-- `Tag.is_data` (intel.py line 42). -/
def isData (r : Rec) : Bool := r.tag == some DATA

/-- `Record.compute_count` (intel.py line 89). -/
def computeCount (r : Rec) : Nat := r.data.length

/-- `Record.compute_checksum` (intel.py line 92): two's complement of the low
byte of count + the two bytes of the 16-bit offset + tag + data sum.
`sum_bytes(struct.pack('H', offset))` sums the two bytes of `offset`, which
for `offset < 2^16` is `offset % 256 + offset / 256`. -/
def computeChecksum (r : Rec) : Nat :=
  let offset := r.address &&& 0xFFFF
  let s := r.count + (offset % 256 + offset / 256) + r.tag.getD 0 + r.data.sum
  (0x100 - (s &&& 0xFF)) &&& 0xFF

/-- Record construction once past the `__init__` bound checks. -/
def make (address tag : Nat) (data : List Nat) (cks : Cks) : Rec :=
  Rec.make computeCount computeChecksum address (some tag) data cks

/-- `Record.__init__` (intel.py line 68) with its address/size bound checks;
`self.TAG_TYPE(tag)` raises for a value outside the enumeration. -/
def init (address tag : Nat) (data : List Nat) (cks : Cks) : Except String Rec :=
  if ¬ address < 4294967296 then .error "address overflow"
  else if ¬ address + data.length ≤ 4294967296 then .error "size overflow"
  else if ¬ tag ≤ 5 then .error "invalid tag"
  else .ok (make address tag data cks)

/-- `Record.check` (intel.py line 103). -/
def check (r : Rec) : Except String Unit := do
  baseCheck computeChecksum r
  if r.count ≠ computeCount r then throw "count error"
  if ¬ r.tag.getD 6 ≤ 5 then throw "invalid tag"

/-- `Record.build_data` (intel.py line 112); inside `split` the `__init__`
bound checks always pass, so the plain constructor is used. -/
def buildData (address : Nat) (data : List Nat) : Rec := make address DATA data .auto

/-- `Record.build_extended_linear_address` (intel.py line 190): data is the
big-endian 16-bit page `address >> 16` (callers keep `address < 2^32`). -/
def buildELA (address : Nat) : Rec :=
  let segment := address >>> 16
  make 0 EXTENDED_LINEAR_ADDRESS [segment / 256, segment % 256] .auto

/-- `Record.build_start_linear_address` (intel.py line 216): data is the
big-endian 32-bit `address`. -/
def buildSLA (address : Nat) : Rec :=
  make 0 START_LINEAR_ADDRESS
    [address / 16777216 % 256, address / 65536 % 256, address / 256 % 256, address % 256]
    .auto

/-- `Record.build_end_of_file` (intel.py line 176). -/
def buildEOF : Rec := make 0 END_OF_FILE [] .auto

/-- `Record.terminate` (intel.py line 354). -/
def terminate (start : Nat) : List Rec := [buildELA 0, buildSLA start, buildEOF]

/-- The chunk loop of `Record.split` (intel.py lines 299-322), carrying
`address` and `address_old`. -/
def splitLoop : Nat → Nat → List (List Nat) → List Rec
  | _, _, [] => []
  | address, addressOld, chunk :: rest =>
    let length := chunk.length
    let endex := address + length
    let overflow := endex &&& 0xFFFF
    if overflow ≠ 0 ∧ (address ^^^ endex) &&& 0xFFFF0000 ≠ 0 then
      let pivot := length - overflow
      buildData address (chunk.take pivot) ::
        buildELA (address + pivot) ::
          buildData (address + pivot) (chunk.drop pivot) ::
            splitLoop (address + pivot + overflow) (address + pivot) rest
  else
    (if (address ^^^ addressOld) &&& 0xFFFF0000 ≠ 0 then [buildELA address] else []) ++
      buildData address chunk :: splitLoop (address + length) address rest

/-- `Record.split` (intel.py line 259). -/
def split (data : List Nat) (address columns : Nat) (align standalone : Bool)
    (start : Option Nat) : Except String (List Rec) :=
  if ¬ address < 4294967296 then .error "address overflow"
  else if ¬ address + data.length ≤ 4294967296 then .error "size overflow"
  else if ¬ (0 < columns ∧ columns < 255) then .error "column overflow"
  else
    let start := start.getD address
    let alignBase := if align then address % columns else 0
    .ok (splitLoop address 0 (chop data columns alignBase) ++
      if standalone then terminate start else [])

end Intel

/-! ## Motorola S-record variant (`hexrec/formats/motorola.py`) -/

namespace Mot

/-- `TAG_TO_ADDRESS_LENGTH` (motorola.py line 71). -/
def tagToAddressLength (tag : Nat) : Option Nat :=
  match tag with
  | 0 => some 2 | 1 => some 2 | 2 => some 3 | 3 => some 4
  | 7 => some 4 | 8 => some 3 | 9 => some 2
  | _ => none

/-- `Tag.is_data` (motorola.py line 55). -/
def isData (r : Rec) : Bool := r.tag == some 1 || r.tag == some 2 || r.tag == some 3

/-- `Record.compute_count` (motorola.py line 114). -/
def computeCount (r : Rec) : Nat :=
  (tagToAddressLength (r.tag.getD 0)).getD 0 + r.data.length + 1

/-- `Record.compute_checksum` (motorola.py line 119): one's complement of the
low byte of count + the four address bytes + data sum.
`sum_bytes(struct.pack('BL', count, address))` sums `count` and the four
bytes of `address` (which requires `address < 2^32` in Python; all records
considered in the theorems satisfy this). -/
def computeChecksum (r : Rec) : Nat :=
  let a := r.address
  let s := r.count + (a % 256 + a / 256 % 256 + a / 65536 % 256 + a / 16777216 % 256)
      + r.data.sum
  (s &&& 0xFF) ^^^ 0xFF

/-- Motorola `Record.__init__` (no extra bound checks beyond the tag
enumeration, which contains the values 0-9). -/
def make (address tag : Nat) (data : List Nat) (cks : Cks) : Rec :=
  Rec.make computeCount computeChecksum address (some tag) data cks

/-- `Record.check` (motorola.py line 125). -/
def check (r : Rec) : Except String Unit := do
  baseCheck computeChecksum r
  if ¬ r.tag.getD 10 ≤ 9 then throw "invalid tag"
  if (r.tag.getD 10 = 0 ∨ r.tag.getD 10 = 4 ∨ r.tag.getD 10 = 5 ∨ r.tag.getD 10 = 6)
      ∧ r.address ≠ 0 then
    throw "address error"
  if r.count ≠ computeCount r then throw "count error"

/-- `Record.fit_data_tag` (motorola.py line 136). -/
def fitDataTag (endex : Nat) : Except String Nat :=
  if ¬ endex ≤ 4294967296 then .error "address overflow"
  else if endex ≤ 65536 then .ok 1
  else if endex ≤ 16777216 then .ok 2
  else .ok 3

/-- `Record.fit_count_tag` (motorola.py line 187). -/
def fitCountTag (recordCount : Nat) : Except String Nat :=
  if ¬ recordCount < 16777216 then .error "count overflow"
  else if recordCount < 65536 then .ok 5
  else .ok 6

/-- `Record.build_header` (motorola.py line 223). -/
def buildHeader (data : List Nat) : Rec := make 0 0 data .auto

/-- `Record.build_data` (motorola.py line 239) once a valid data tag is
fixed. -/
def buildData (address : Nat) (data : List Nat) (tag : Nat) : Rec :=
  make address tag data .auto

/-- `Record.build_terminator` (motorola.py line 282):
`MATCHING_TAG.index(last_data_tag)` maps data tag 1/2/3 to start tag 9/8/7
(any other argument raises in Python; the callers only pass data tags). -/
def buildTerminator (start lastDataTag : Nat) : Rec :=
  let tagIndex := if lastDataTag = 3 then 7 else if lastDataTag = 2 then 8 else 9
  make start tagIndex [] .auto

/-- `Record.build_count` (motorola.py line 315): the count as 2 (tag 5) or 3
(tag 6) big-endian bytes, `struct.pack('>L', n)[(7 - tag):]`. -/
def buildCount (recordCount : Nat) : Except String Rec :=
  (fitCountTag recordCount).bind (fun tag =>
    let countData :=
      if tag = 5 then [recordCount / 256 % 256, recordCount % 256]
      else [recordCount / 65536 % 256, recordCount / 256 % 256, recordCount % 256]
    .ok (make 0 tag countData .auto))

/-- The chunk loop of `Record.split` (motorola.py lines 538-541). -/
def splitLoop (tag : Nat) : Nat → List (List Nat) → List Rec
  | _, [] => []
  | offset, c :: cs => buildData offset c tag :: splitLoop tag (offset + c.length) cs

/-- `Record.split` (motorola.py line 487). -/
def split (data : List Nat) (address columns : Nat) (align standalone : Bool)
    (start : Option Nat) (tag : Option Nat) (header : List Nat) :
    Except String (List Rec) :=
  if ¬ address < 4294967296 then .error "address overflow"
  else if ¬ address + data.length ≤ 4294967296 then .error "size overflow"
  else if ¬ (0 < columns ∧ columns < 128) then .error "column overflow"
  else do
    let start := start.getD address
    let tag ← match tag with
      | some t => pure t
      | none => fitDataTag (address + data.length)
    let skip := if align then address % columns else 0
    let chunks := chop data columns skip
    let countRec ← buildCount chunks.length
    pure ((if standalone then [buildHeader header] else []) ++
      splitLoop tag address chunks ++
      if standalone then [countRec, buildTerminator start tag] else [])

end Mot

/-! ## The block ↔ record bridge (`hexrec.records`) -/

/-- `records_to_blocks` (records.py line 142): extract the data records, take
their `(address, data)` pairs, and collapse them with `merge(union(...))`.
The `union` of a single in-order record list writes each record in order with
later records overwriting earlier ones; this is modelled (see `mergeUnion`)
by treating every record as its own source, in order.
`dataBlocks` is the extraction step. -/
def dataBlocks (isData : Rec → Bool) (records : List Rec) : List Block :=
  (records.filter isData).map (fun r => (r.address, r.data))

/-- See the section comment: later records overwrite earlier ones, modelled
by treating every record as its own source. -/
def recordsToBlocks (isData : Rec → Bool) (records : List Rec) : List Block :=
  mergeUnion ((dataBlocks isData records).map (fun b => [b]))

/-- The `(address, data)` blocks of a record list, in order. -/
def recBlocks (rs : List Rec) : List Block := rs.map (fun r => (r.address, r.data))

/-- The block-level core of `merge_records` (records.py line 274):
`merge(union(*[[(r.address, r.data) for r in records] for records in
data_records]))`, where later sequences overwrite earlier ones. -/
def mergeRecordsBlocks (srcs : List (List Rec)) : List Block :=
  mergeUnion (srcs.map recBlocks)

/-- The coverage function of the single interval `[a, a + d.length)` holding
the bytes of `d`. -/
def intervalF (a : Nat) (d : List Nat) (x : Nat) : Option Nat :=
  if a ≤ x then d[x - a]? else none

/-- `Tiling a d bs`: the blocks `bs` tile the interval starting at `a`
holding the bytes `d`, contiguously and in address order, each block
non-empty. -/
inductive Tiling : Nat → List Nat → List Block → Prop where
  | nil (a : Nat) : Tiling a [] []
  | cons (a : Nat) (c d : List Nat) (bs : List Block) (hc : c ≠ [])
      (ht : Tiling (a + c.length) d bs) : Tiling a (c ++ d) ((a, c) :: bs)

/-- `chunksBlocks a cs` places the chunks `cs` end to end starting at `a`. -/
def chunksBlocks : Nat → List (List Nat) → List Block
  | _, [] => []
  | a, c :: cs => (a, c) :: chunksBlocks (a + c.length) cs

/-- Decidable equality for `Except`, used to evaluate the embedded checks on
concrete records. -/
instance {e a : Type} [DecidableEq e] [DecidableEq a] :
    DecidableEq (Except e a) := fun x y =>
  match x, y with
  | .error e1, .error e2 =>
    if h : e1 = e2 then isTrue (by rw [h]) else
      isFalse (by intro hh; cases hh; exact h rfl)
  | .ok a1, .ok a2 =>
    if h : a1 = a2 then isTrue (by rw [h]) else
      isFalse (by intro hh; cases hh; exact h rfl)
  | .error _, .ok _ => isFalse (by intro hh; cases hh)
  | .ok _, .error _ => isFalse (by intro hh; cases hh)

/-! ## Hexadecimal text: `hexlify`, `unhexlify`, fixed-width rendering

`hexlify`/`unhexlify` are from `hexrec.utils` (not under the provided
sources) and are modelled from the spec: fixed-width upper-case hexadecimal
with two digits per byte. -/

/-- Upper-case hexadecimal digit character, as produced by Python `%X`. -/
def toHexDigit (m : Nat) : Char :=
  if m < 10 then Char.ofNat (48 + m) else Char.ofNat (55 + m)

/-- Value of a hex digit character (either case), `none` otherwise; models
the `[0-9A-Fa-f]` character class combined with `int(_, 16)`. -/
def hexDigitVal (c : Char) : Option Nat :=
  if 48 ≤ c.toNat ∧ c.toNat ≤ 57 then some (c.toNat - 48)
  else if 65 ≤ c.toNat ∧ c.toNat ≤ 70 then some (c.toNat - 55)
  else if 97 ≤ c.toNat ∧ c.toNat ≤ 102 then some (c.toNat - 87)
  else none

/-- `k`-digit big-endian hex rendering of `n`: `f'{n:0{k}X}'` for
`n < 16^k`. -/
def toHexFixed : Nat → Nat → List Char
  | 0, _ => []
  | k + 1, n => toHexFixed k (n / 16) ++ [toHexDigit (n % 16)]

def parseHexGo (acc : Nat) : List Char → Option Nat
  | [] => some acc
  | c :: cs =>
    match hexDigitVal c with
    | none => none
    | some v => parseHexGo (acc * 16 + v) cs

/-- `int(s, 16)` on hex digits; `none` on any other character, `some 0` on
the empty string (as used by Motorola's `int('0' + slice, 16)`). -/
def parseHex (cs : List Char) : Option Nat := parseHexGo 0 cs

/-- Modelled from the spec: `hexrec.utils.hexlify`, two upper-case digits
per byte. -/
def hexlify (bs : List Nat) : List Char := (bs.map (fun b => toHexFixed 2 b)).flatten

/-- Modelled from the spec: `hexrec.utils.unhexlify`, inverse of
`hexlify`. -/
def unhexlify : List Char → Option (List Nat)
  | [] => some []
  | [_] => none
  | c1 :: c2 :: rest =>
    match parseHex [c1, c2], unhexlify rest with
    | some b, some bs => some (b :: bs)
    | _, _ => none

/-- Python `str.strip()` whitespace set. -/
def isPySpace (c : Char) : Bool :=
  c = ' ' || c = '\t' || c = '\n' || c = '\r' || c = '\x0b' || c = '\x0c'

/-- Python `str.strip()`. -/
def pyStrip (cs : List Char) : List Char :=
  ((cs.dropWhile isPySpace).reverse.dropWhile isPySpace).reverse

/-! ## Marshal / parse (the `__str__` and `parse_record` methods) -/

/-- Intel `Record.__str__` (intel.py line 79): runs `check()` first, then
renders `:CCAAAATT[DD...]SS` — the count field is `len(data)`, the address
is truncated to 16 bits, and the stored checksum is used when present
(`_get_checksum`).  Fixed-width rendering is exact because `check()` bounds
every field to its width. -/
def Intel.marshal (r : Rec) : Except String (List Char) :=
  (Intel.check r).bind (fun _ =>
    .ok (':' :: (toHexFixed 2 r.data.length ++ (toHexFixed 4 (r.address &&& 0xFFFF) ++
      (toHexFixed 2 (r.tag.getD 0) ++ (hexlify r.data ++
      toHexFixed 2 (r.checksum.getD (Intel.computeChecksum r))))))))

/-- Intel `Record.parse_record` (intel.py line 240): strips the line,
matches `^:(..)(....)(..)((..){,255})(..)$` over hex digits (the structural
decomposition below is the regex's unique match on all-hex lines), compares
the declared count with the data length, and builds the record through
`__init__` (which validates the tag and the 32-bit bounds). -/
def Intel.parse (line : List Char) : Except String Rec :=
  match pyStrip line with
  | [] => .error "regex error"
  | c :: rest =>
    if c = ':' ∧ 10 ≤ rest.length ∧ (rest.length - 10) % 2 = 0 ∧ (rest.length - 10) / 2 ≤ 255 then
      match parseHex (rest.take 2), parseHex ((rest.drop 2).take 4),
          parseHex ((rest.drop 6).take 2),
          unhexlify ((rest.drop 8).take (rest.length - 10)),
          parseHex (rest.drop (rest.length - 2)) with
      | some count, some offset, some tag, some data, some checksum =>
        if ¬ tag ≤ 5 then .error "invalid tag"
        else if count ≠ data.length then .error "count error"
        else Intel.init offset tag data (.given checksum)
      | _, _, _, _, _ => .error "regex error"
    else .error "regex error"

/-- MOS `Record.__str__` (mos.py line 57): renders
`;CCAAAA[DD...]SSSS` from the stored fields (no `check()` call); exact
fixed widths require the fields to be in range, which the round-trip
theorem's `check()` hypothesis guarantees. -/
def Mos.marshal (r : Rec) : List Char :=
  ';' :: (toHexFixed 2 r.count ++ (toHexFixed 4 r.address ++ (hexlify r.data ++
    toHexFixed 4 (r.checksum.getD (Mos.computeChecksum r)))))

/-- MOS `Record.parse_record` (mos.py line 199): strips, matches
`^;(..)(....)((..){,255})(....)$` over hex digits, compares the count with
the data length, and stores the parsed checksum. -/
def Mos.parse (line : List Char) : Except String Rec :=
  match pyStrip line with
  | [] => .error "regex error"
  | c :: rest =>
    if c = ';' ∧ 10 ≤ rest.length ∧ (rest.length - 10) % 2 = 0 ∧ (rest.length - 10) / 2 ≤ 255 then
      match parseHex (rest.take 2), parseHex ((rest.drop 2).take 4),
          unhexlify ((rest.drop 6).take (rest.length - 10)),
          parseHex (rest.drop (rest.length - 4)) with
      | some count, some address, some data, some checksum =>
        if count ≠ data.length then .error "count error"
        else .ok (Mos.make address data (.given checksum))
      | _, _, _, _ => .error "regex error"
    else .error "regex error"

/-- Motorola `Record.__str__` (motorola.py line 90): runs `check()`, then
renders `S` + decimal tag + count + address slice + data + checksum.  The
address text is `f'{address:08X}'[2*(4-alen):]`, modelled as dropping the
leading digits of the 8-digit rendering (exact for `address < 2^32`). -/
def Mot.marshal (r : Rec) : Except String (List Char) :=
  (Mot.check r).bind (fun _ =>
    match tagToAddressLength (r.tag.getD 0) with
    | none =>
      .ok ('S' :: toHexDigit (r.tag.getD 0) :: (toHexFixed 2 (r.data.length + 1) ++
        (hexlify r.data ++ toHexFixed 2 (r.checksum.getD (Mot.computeChecksum r)))))
    | some alen =>
      .ok ('S' :: toHexDigit (r.tag.getD 0) :: (toHexFixed 2 (alen + r.data.length + 1) ++
        ((toHexFixed 8 r.address).drop (2 * (4 - alen)) ++ (hexlify r.data ++
        toHexFixed 2 (r.checksum.getD (Mot.computeChecksum r)))))))

/-- Motorola `Record.parse_record` (motorola.py line 341): strips, matches
`^S[0-9]([0-9A-Fa-f]{2}){4,140}$`, asserts `2*count == len(line) - 4`,
slices the address by the tag's width (`int('0' + slice, 16)`, hence
`some 0` on an empty slice), and builds the record (no width bounds in the
Motorola constructor). -/
def Mot.parse (line : List Char) : Except String Rec :=
  match pyStrip line with
  | [] => .error "regex error"
  | [_] => .error "regex error"
  | c :: t :: rest =>
    if c = 'S' ∧ 48 ≤ t.toNat ∧ t.toNat ≤ 57 ∧ 8 ≤ rest.length ∧ rest.length % 2 = 0 ∧
        rest.length ≤ 280 then
      match parseHex (rest.take 2) with
      | some count =>
        if 2 * count = rest.length - 2 then
          match parseHex ((rest.drop 2).take
                (2 * (tagToAddressLength (t.toNat - 48)).getD 0)),
              unhexlify (((rest.drop 2).drop
                (2 * (tagToAddressLength (t.toNat - 48)).getD 0)).take
                (rest.length - 2 * (tagToAddressLength (t.toNat - 48)).getD 0 - 4)),
              parseHex (rest.drop (rest.length - 2)) with
          | some address, some data, some checksum =>
            .ok (Mot.make address (t.toNat - 48) data (.given checksum))
          | _, _, _ => .error "regex error"
        else .error "assert error"
      | none => .error "regex error"
    else .error "regex error"

/-! ## Lemmas about the block machinery -/

theorem blocksAt_nil (x : Nat) : blocksAt [] x = none := rfl

theorem blocksAt_cons (b : Block) (bs : List Block) (x : Nat) :
    blocksAt (b :: bs) x =
      if b.1 ≤ x ∧ x < b.1 + b.2.length then b.2[x - b.1]? else blocksAt bs x := rfl

/-- The byte map reconstructed by `scanBlocks` agrees with the scanned
coverage function on the scanned range and is `none` outside it. -/
theorem scanBlocks_at (f : Nat → Option Nat) :
    ∀ n a x, blocksAt (scanBlocks f a n) x =
      if a ≤ x ∧ x < a + n then f x else none := by
  intro n
  induction n with
  | zero =>
    intro a x
    rw [scanBlocks, blocksAt_nil, if_neg]
    omega
  | succ n ih =>
    intro a x
    rw [scanBlocks]
    cases hfa : f a with
    | none =>
      dsimp only
      rw [ih (a + 1) x]
      by_cases hx : x = a
      · subst hx
        rw [if_neg (by omega), if_pos (by omega), hfa]
      · split_ifs with h1 h2 h2 <;> first | rfl | omega
    | some v =>
      dsimp only
      have hstar := ih (a + 1) x
      cases hL : scanBlocks f (a + 1) n with
      | nil =>
        rw [hL, blocksAt_nil] at hstar
        rw [pushRun, blocksAt_cons]
        by_cases hx : x = a
        · subst hx
          rw [if_pos (by simp), if_pos (by omega), hfa, Nat.sub_self]
          simp
        · rw [blocksAt_nil, if_neg (by simp only [List.length_cons, List.length_nil]; omega)]
          by_cases hr : a ≤ x ∧ x < a + (n + 1)
          · rw [if_pos hr]
            rw [if_pos (by omega)] at hstar
            exact hstar
          · rw [if_neg hr]
      | cons hd rest =>
        obtain ⟨a', c⟩ := hd
        rw [hL] at hstar
        rw [pushRun]
        by_cases ha' : a' = a + 1
        · subst ha'
          rw [if_pos rfl, blocksAt_cons]
          rw [blocksAt_cons] at hstar
          simp only at hstar ⊢
          rcases Nat.lt_trichotomy x a with hlt | heq | hgt
          · rw [if_neg (by omega), if_neg (by omega)]
            rw [if_neg (by omega), if_neg (by omega)] at hstar
            exact hstar
          · subst heq
            rw [if_pos (by simp only [List.length_cons]; omega), if_pos (by omega), hfa, Nat.sub_self]
            simp
          · by_cases hin : x < a + 1 + c.length
            · have hidx : x - (a + 1) < c.length := by omega
              rw [if_pos (by constructor <;> omega), List.getElem?_eq_getElem hidx] at hstar
              by_cases hcond : a + 1 ≤ x ∧ x < a + 1 + n
              · rw [if_pos hcond] at hstar
                rw [if_pos (by simp only [List.length_cons]; omega)]
                have hxa : x - a = (x - (a + 1)) + 1 := by omega
                rw [hxa, List.getElem?_cons_succ, List.getElem?_eq_getElem hidx, hstar,
                  if_pos (by constructor <;> omega)]
              · rw [if_neg hcond] at hstar
                exact absurd hstar (by simp)
            · rw [if_neg (by omega)] at hstar
              rw [if_neg (by simp only [List.length_cons, List.length_nil]; omega), hstar]
              split_ifs with h1 h2 h2 <;> first | rfl | omega
        · rw [if_neg ha', blocksAt_cons]
          simp only
          by_cases hx : x = a
          · subst hx
            rw [if_pos (by simp only [List.length_cons, List.length_nil]; omega), if_pos (by omega), hfa, Nat.sub_self]
            simp
          · rw [if_neg (by simp only [List.length_cons, List.length_nil]; omega), hstar]
            split_ifs with h1 h2 h2 <;> first | rfl | omega

theorem seqWF_nil : seqWF [] = true := rfl

theorem seqWF_single (b : Block) : seqWF [b] = true := rfl

theorem seqWF_cons₂ (b c : Block) (rest : List Block) :
    seqWF (b :: c :: rest) = (decide (b.1 + b.2.length ≤ c.1) && seqWF (c :: rest)) := rfl

/-- `scanBlocks` produces a sorted non-overlapping list of non-empty blocks
whose starts lie at or after the scan origin. -/
theorem scanBlocks_inv (f : Nat → Option Nat) :
    ∀ n a, (∀ b ∈ scanBlocks f a n, a ≤ b.1 ∧ b.2 ≠ []) ∧
      seqWF (scanBlocks f a n) = true := by
  intro n
  induction n with
  | zero => intro a; rw [scanBlocks]; exact ⟨fun b hb => absurd hb (List.not_mem_nil b), rfl⟩
  | succ n ih =>
    intro a
    rw [scanBlocks]
    cases hfa : f a with
    | none =>
      dsimp only
      obtain ⟨hmem, hwf⟩ := ih (a + 1)
      exact ⟨fun b hb => ⟨by have := (hmem b hb).1; omega, (hmem b hb).2⟩, hwf⟩
    | some v =>
      dsimp only
      obtain ⟨hmem, hwf⟩ := ih (a + 1)
      cases hL : scanBlocks f (a + 1) n with
      | nil =>
        rw [pushRun]
        refine ⟨?_, seqWF_single _⟩
        intro b hb
        have hb' := List.mem_singleton.mp hb
        subst hb'
        exact ⟨Nat.le_refl a, by simp⟩
      | cons hd rest =>
        obtain ⟨a', c⟩ := hd
        rw [hL] at hmem hwf
        have ha'start : a + 1 ≤ a' := (hmem (a', c) (by simp)).1
        by_cases ha' : a' = a + 1
        · subst ha'
          rw [pushRun, if_pos rfl]
          constructor
          · intro b hb
            rcases List.mem_cons.mp hb with rfl | h
            · exact ⟨Nat.le_refl a, by simp⟩
            · have := hmem b (List.mem_cons_of_mem _ h)
              exact ⟨by omega, this.2⟩
          · cases rest with
            | nil => exact seqWF_single _
            | cons r rest' =>
              rw [seqWF_cons₂]
              rw [seqWF_cons₂] at hwf
              simp only [Bool.and_eq_true, decide_eq_true_eq] at hwf ⊢
              obtain ⟨hle, hwtail⟩ := hwf
              exact ⟨by simp only [List.length_cons] at hle ⊢; omega, hwtail⟩
        · rw [pushRun, if_neg ha']
          constructor
          · intro b hb
            rcases List.mem_cons.mp hb with rfl | h
            · exact ⟨Nat.le_refl a, by simp⟩
            · have := hmem b h
              exact ⟨by omega, this.2⟩
          · rw [seqWF_cons₂]
            simp only [Bool.and_eq_true, decide_eq_true_eq]
            exact ⟨by simp only [List.length_cons, List.length_nil]; omega, hwf⟩

/-- A covered address is below the block list's `seqEnd`. -/
theorem blocksAt_lt_seqEnd {bs : List Block} {x : Nat}
    (h : (blocksAt bs x).isSome) : x < seqEnd bs := by
  induction bs with
  | nil => simp [blocksAt_nil] at h
  | cons b rest ih =>
    rw [blocksAt_cons] at h
    have hend : seqEnd (b :: rest) = max (blockEnd b) (seqEnd rest) := rfl
    rw [hend]
    split_ifs at h with hc
    · have hx : x < b.1 + b.2.length := hc.2
      have hx' : x < blockEnd b := hx
      omega
    · have := ih h
      omega

/-- A covered address is below `srcsEnd`. -/
theorem unionAt_lt_srcsEnd {ss : List (List Block)} {x : Nat}
    (h : (unionAt ss x).isSome) : x < srcsEnd ss := by
  induction ss with
  | nil => simp [unionAt] at h
  | cons bs rest ih =>
    rw [unionAt] at h
    have hend : srcsEnd (bs :: rest) = max (seqEnd bs) (srcsEnd rest) := rfl
    rw [hend]
    cases hu : unionAt rest x with
    | some w =>
      have := ih (by rw [hu]; rfl)
      omega
    | none =>
      rw [hu] at h
      have := blocksAt_lt_seqEnd h
      omega

/-- The merged block list reconstructs exactly the prioritized byte union. -/
theorem mergeUnion_at (ss : List (List Block)) (x : Nat) :
    blocksAt (mergeUnion ss) x = unionAt ss x := by
  rw [mergeUnion, scanBlocks_at]
  split_ifs with h
  · rfl
  · cases hu : unionAt ss x with
    | none => rfl
    | some v => exact absurd (unionAt_lt_srcsEnd (by rw [hu]; rfl)) (by omega)

/-- The merged block list is sorted and non-overlapping. -/
theorem mergeUnion_wf (ss : List (List Block)) : seqWF (mergeUnion ss) = true :=
  (scanBlocks_inv (unionAt ss) (srcsEnd ss) 0).2

/-- The merged block list has no empty blocks. -/
theorem mergeUnion_nonempty (ss : List (List Block)) :
    ∀ b ∈ mergeUnion ss, b.2 ≠ [] := fun b hb =>
  ((scanBlocks_inv (unionAt ss) (srcsEnd ss) 0).1 b hb).2

/-- `scanBlocks` only depends on the coverage function pointwise. -/
theorem scanBlocks_congr {f g : Nat → Option Nat} (h : ∀ x, f x = g x) :
    ∀ n a, scanBlocks f a n = scanBlocks g a n := by
  intro n
  induction n with
  | zero => intro a; rfl
  | succ n ih => intro a; rw [scanBlocks, scanBlocks, h a, ih (a + 1)]

/-- Scanning a range where the coverage function is `none` yields nothing. -/
theorem scanBlocks_none {f : Nat → Option Nat} :
    ∀ n lo, (∀ x, lo ≤ x → f x = none) → scanBlocks f lo n = [] := by
  intro n
  induction n with
  | zero => intro lo _; rfl
  | succ n ih =>
    intro lo h
    rw [scanBlocks, h lo (Nat.le_refl lo)]
    exact ih (lo + 1) (fun x hx => h x (by omega))

theorem intervalF_none_right (a : Nat) (d : List Nat) :
    ∀ x, a + d.length ≤ x → intervalF a d x = none := by
  intro x hx
  rw [intervalF, if_pos (by omega)]
  exact List.getElem?_eq_none (by omega)

/-- Scanning an interval coverage function from inside the interval yields
the single remaining run. -/
theorem scanBlocks_interval_mid (a : Nat) (d : List Nat) :
    ∀ n k, k < d.length → d.length - k ≤ n →
      scanBlocks (intervalF a d) (a + k) n = [(a + k, d.drop k)] := by
  intro n
  induction n with
  | zero => intro k h1 h2; omega
  | succ n ih =>
    intro k h1 h2
    rw [scanBlocks]
    have hval : intervalF a d (a + k) = some d[k] := by
      rw [intervalF, if_pos (by omega), Nat.add_sub_cancel_left,
        List.getElem?_eq_getElem h1]
    rw [hval]
    dsimp only
    by_cases hlast : k + 1 < d.length
    · have hrec : scanBlocks (intervalF a d) (a + k + 1) n = [(a + (k + 1), d.drop (k + 1))] := by
        have := ih (k + 1) hlast (by omega)
        rwa [show a + (k + 1) = a + k + 1 by omega] at this
      rw [hrec, show a + (k + 1) = a + k + 1 by omega, pushRun, if_pos rfl]
      rw [List.getElem_cons_drop d k h1]
    · have hrec : scanBlocks (intervalF a d) (a + k + 1) n = [] := by
        refine scanBlocks_none n (a + k + 1) (fun x hx => ?_)
        exact intervalF_none_right a d x (by omega)
      rw [hrec, pushRun]
      have hdrop : d.drop k = [d[k]] := by
        rw [← List.getElem_cons_drop d k h1, List.drop_eq_nil_of_le (by omega)]
      rw [hdrop]

/-- Scanning a range that contains the whole interval yields exactly the
interval's block. -/
theorem scanBlocks_interval (a : Nat) (d : List Nat) (hd : d ≠ []) :
    ∀ n lo, lo ≤ a → a + d.length ≤ lo + n →
      scanBlocks (intervalF a d) lo n = [(a, d)] := by
  intro n
  induction n with
  | zero =>
    intro lo h1 h2
    have : d.length = 0 := by omega
    exact absurd (List.eq_nil_of_length_eq_zero this) hd
  | succ n ih =>
    intro lo h1 h2
    by_cases hlo : lo = a
    · subst hlo
      have hlen : 0 < d.length := List.length_pos.mpr hd
      have := scanBlocks_interval_mid lo d (n + 1) 0 hlen (by omega)
      rwa [Nat.add_zero, List.drop_zero] at this
    · rw [scanBlocks, intervalF, if_neg (by omega)]
      dsimp only
      exact ih (lo + 1) (by omega) (by omega)

theorem unionAt_cons (bs : List Block) (rest : List (List Block)) (x : Nat) :
    unionAt (bs :: rest) x =
      match unionAt rest x with
      | some v => some v
      | none => blocksAt bs x := rfl

theorem unionAt_cons_some {rest : List (List Block)} {x v : Nat}
    (bs : List Block) (h : unionAt rest x = some v) :
    unionAt (bs :: rest) x = some v := by
  rw [unionAt_cons, h]

theorem unionAt_cons_none {rest : List (List Block)} {x : Nat}
    (bs : List Block) (h : unionAt rest x = none) :
    unionAt (bs :: rest) x = blocksAt bs x := by
  rw [unionAt_cons, h]

/-! ## Chop and tiling lemmas -/

/-- `chopGo` reassembles to its input when given enough fuel. -/
theorem chopGo_flatten (w : Nat) (hw : 0 < w) :
    ∀ fuel dat, dat.length ≤ fuel → (chopGo w fuel dat).flatten = dat := by
  intro fuel
  induction fuel with
  | zero =>
    intro dat h
    cases dat with
    | nil => rfl
    | cons x xs => simp at h
  | succ fuel ih =>
    intro dat h
    cases dat with
    | nil => rfl
    | cons x xs =>
      rw [chopGo, List.flatten_cons,
        ih ((x :: xs).drop w) (by simp only [List.length_drop, List.length_cons] at h ⊢; omega)]
      exact List.take_append_drop w (x :: xs)

/-- `chop` reassembles to its input. -/
theorem chop_flatten (d : List Nat) (w b : Nat) (hw : 0 < w) :
    (chop d w b).flatten = d := by
  unfold chop
  dsimp only
  by_cases he : (d.take (if b = 0 then 0 else w - b)).isEmpty
  · rw [if_pos he, List.nil_append,
      chopGo_flatten w hw _ _ (Nat.le_refl _)]
    rcases List.take_eq_nil_iff.mp (List.isEmpty_iff.mp he) with h0 | h0
    · rw [h0, List.drop_zero]
    · rw [h0, List.drop_nil]
  · rw [if_neg he, List.singleton_append, List.flatten_cons,
      chopGo_flatten w hw _ _ (Nat.le_refl _)]
    exact List.take_append_drop _ d

/-- Every chunk produced by `chopGo` is non-empty and at most `w` long. -/
theorem chopGo_mem (w : Nat) (hw : 0 < w) :
    ∀ fuel dat c, c ∈ chopGo w fuel dat → c ≠ [] ∧ c.length ≤ w := by
  intro fuel
  induction fuel with
  | zero =>
    intro dat c hc
    cases dat with
    | nil => cases hc
    | cons x xs => cases hc
  | succ fuel ih =>
    intro dat c hc
    cases dat with
    | nil => cases hc
    | cons x xs =>
      rw [chopGo] at hc
      rcases List.mem_cons.mp hc with rfl | h
      · refine ⟨?_, by simp only [List.length_take, List.length_cons]; omega⟩
        simp only [ne_eq, List.take_eq_nil_iff, List.cons_ne_nil, or_false]
        omega
      · exact ih _ c h

/-- Every chunk produced by `chop` is non-empty and at most `w` long. -/
theorem chop_mem (d : List Nat) (w b : Nat) (hw : 0 < w) :
    ∀ c ∈ chop d w b, c ≠ [] ∧ c.length ≤ w := by
  intro c hc
  unfold chop at hc
  dsimp only at hc
  rw [List.mem_append] at hc
  rcases hc with h | h
  · by_cases he : (d.take (if b = 0 then 0 else w - b)).isEmpty
    · rw [if_pos he] at h
      cases h
    · rw [if_neg he] at h
      have hc' := List.mem_singleton.mp h
      subst hc'
      refine ⟨fun hnil => he (by rw [hnil]; rfl), ?_⟩
      simp only [List.length_take]
      split_ifs <;> omega
  · exact chopGo_mem w hw _ _ c h

theorem chunks_tiling :
    ∀ cs a, (∀ c ∈ cs, c ≠ []) → Tiling a cs.flatten (chunksBlocks a cs) := by
  intro cs
  induction cs with
  | nil => intro a _; exact Tiling.nil a
  | cons c cs ih =>
    intro a h
    rw [List.flatten_cons, chunksBlocks]
    exact Tiling.cons a c cs.flatten _ (h c (by simp))
      (ih (a + c.length) (fun c' hc' => h c' (by simp [hc'])))

/-- The prioritized union of a tiling, one block per source, is the
interval's coverage function (the blocks are pairwise disjoint, so priority
is immaterial). -/
theorem tiling_unionAt {a : Nat} {d : List Nat} {bs : List Block}
    (ht : Tiling a d bs) : ∀ x, unionAt (bs.map (fun b => [b])) x = intervalF a d x := by
  induction ht with
  | nil a =>
    intro x
    rw [intervalF]
    simp [unionAt]
  | cons a c d bs hc ht ih =>
    intro x
    rw [List.map_cons]
    rw [intervalF]
    by_cases h1 : a + c.length ≤ x
    · have hih : unionAt (bs.map fun b => [b]) x = d[x - (a + c.length)]? := by
        rw [ih x, intervalF, if_pos h1]
      cases hd : d[x - (a + c.length)]? with
      | some v =>
        rw [unionAt_cons_some _ (by rw [hih, hd]), if_pos (by omega),
          List.getElem?_append_right (by omega),
          show x - a - c.length = x - (a + c.length) by omega, hd]
      | none =>
        rw [unionAt_cons_none _ (by rw [hih, hd]), blocksAt_cons]
        simp only
        rw [if_neg (by omega), blocksAt_nil, if_pos (by omega),
          List.getElem?_append_right (by omega),
          show x - a - c.length = x - (a + c.length) by omega, hd]
    · have hih : unionAt (bs.map fun b => [b]) x = none := by
        rw [ih x, intervalF, if_neg h1]
      rw [unionAt_cons_none _ hih, blocksAt_cons]
      simp only
      by_cases h2 : a ≤ x
      · rw [if_pos ⟨h2, by omega⟩, if_pos h2, List.getElem?_append, if_pos (by omega)]
      · rw [if_neg (by omega), blocksAt_nil, if_neg h2]

/-- Merging the singleton sources of a tiling gives back the single tiled
block. -/
theorem mergeUnion_singletons_tiling {a : Nat} {d : List Nat} {bs : List Block}
    (ht : Tiling a d bs) (hd : d ≠ []) :
    mergeUnion (bs.map (fun b => [b])) = [(a, d)] := by
  have hpt := tiling_unionAt ht
  rw [mergeUnion, scanBlocks_congr hpt]
  have hlen : 0 < d.length := List.length_pos.mpr hd
  refine scanBlocks_interval a d hd _ 0 (Nat.zero_le a) ?_
  have hsome : (unionAt (bs.map fun b => [b]) (a + d.length - 1)).isSome := by
    rw [hpt _, intervalF, if_pos (by omega),
      List.getElem?_eq_getElem (show a + d.length - 1 - a < d.length by omega)]
    rfl
  have := unionAt_lt_srcsEnd hsome
  omega

/-! ## Priority-lookup lemmas for the merge postcondition -/

theorem seqWF_tail {hd : Block} {rest : List Block}
    (hwf : seqWF (hd :: rest) = true) : seqWF rest = true := by
  cases rest with
  | nil => rfl
  | cons c rest' =>
    rw [seqWF_cons₂, Bool.and_eq_true] at hwf
    exact hwf.2

theorem seqWF_head_le {hd : Block} {rest : List Block}
    (hwf : seqWF (hd :: rest) = true) :
    ∀ b ∈ rest, hd.1 + hd.2.length ≤ b.1 := by
  induction rest generalizing hd with
  | nil => intro b hb; cases hb
  | cons r rest' ih =>
    intro b hb
    rw [seqWF_cons₂, Bool.and_eq_true, decide_eq_true_eq] at hwf
    rcases List.mem_cons.mp hb with rfl | h
    · exact hwf.1
    · have := ih hwf.2 b h
      omega

/-- In a sorted non-overlapping block list, lookup at an address covered by a
member block returns that block's byte. -/
theorem blocksAt_of_mem_wf {bs : List Block} (hwf : seqWF bs = true)
    {b : Block} (hb : b ∈ bs) {x : Nat} (hcov : blockCovers b x) :
    blocksAt bs x = b.2[x - b.1]? := by
  induction bs with
  | nil => cases hb
  | cons hd rest ih =>
    rcases List.mem_cons.mp hb with rfl | h
    · rw [blocksAt_cons, if_pos (show b.1 ≤ x ∧ x < b.1 + b.2.length from hcov)]
    · have hle := seqWF_head_le hwf b h
      rw [blocksAt_cons, if_neg (by obtain ⟨h1, h2⟩ := hcov; simp only [not_and, not_lt]; omega)]
      exact ih (seqWF_tail hwf) h

theorem blocksAt_eq_none_of_not_covers {bs : List Block} {x : Nat}
    (h : ∀ b ∈ bs, ¬ blockCovers b x) : blocksAt bs x = none := by
  induction bs with
  | nil => rfl
  | cons hd rest ih =>
    rw [blocksAt_cons, if_neg (show ¬ (hd.1 ≤ x ∧ x < hd.1 + hd.2.length) from h hd (by simp))]
    exact ih (fun b hb => h b (List.mem_cons_of_mem _ hb))

theorem unionAt_eq_none {ss : List (List Block)} {x : Nat}
    (h : ∀ bs ∈ ss, blocksAt bs x = none) : unionAt ss x = none := by
  induction ss with
  | nil => rfl
  | cons bs rest ih =>
    rw [unionAt_cons_none bs (ih (fun bs' hb => h bs' (List.mem_cons_of_mem _ hb)))]
    exact h bs (by simp)

theorem unionAt_append (pre post : List (List Block)) (x : Nat) :
    unionAt (pre ++ post) x =
      match unionAt post x with
      | some v => some v
      | none => unionAt pre x := by
  induction pre with
  | nil =>
    rw [List.nil_append]
    cases h : unionAt post x <;> rfl
  | cons p pre' ih =>
    rw [List.cons_append, unionAt_cons, ih, unionAt_cons]
    cases h : unionAt post x <;> cases h' : unionAt pre' x <;> rfl

/-- If source `j` has a well-formed block list containing a block covering
`x`, and no source after `j` covers `x`, then the prioritized union at `x`
is that block's byte. -/
theorem unionAt_topmost (ss : List (List Block)) (j : Nat) (hj : j < ss.length)
    (b : Block) (hb : b ∈ ss[j]) (x : Nat) (hcov : blockCovers b x)
    (hwfj : seqWF ss[j] = true)
    (hnone : ∀ j', j < j' → (hj' : j' < ss.length) → blocksAt ss[j'] x = none) :
    unionAt ss x = b.2[x - b.1]? := by
  have hsplit : ss = ss.take j ++ ss[j] :: ss.drop (j + 1) := by
    rw [List.getElem_cons_drop, List.take_append_drop]
  rw [hsplit, unionAt_append]
  have hdropnone : unionAt (ss.drop (j + 1)) x = none := by
    refine unionAt_eq_none (fun bs hbs => ?_)
    obtain ⟨m, hm, hget⟩ := List.mem_iff_getElem.mp hbs
    have hlen : j + 1 + m < ss.length := by
      have := List.length_drop (j + 1) ss
      omega
    have : bs = ss[j + 1 + m] := by
      rw [← hget, List.getElem_drop]
    rw [this]
    exact hnone (j + 1 + m) (by omega) hlen
  obtain ⟨hc1, hc2⟩ := hcov
  have hidx : x - b.1 < b.2.length := by omega
  have hcons : unionAt (ss[j] :: ss.drop (j + 1)) x = some b.2[x - b.1] := by
    rw [unionAt_cons_none _ hdropnone, blocksAt_of_mem_wf hwfj hb ⟨hc1, hc2⟩,
      List.getElem?_eq_getElem hidx]
  rw [hcons]
  exact (List.getElem?_eq_getElem hidx).symm

/-! ## Bit-mask bridging lemmas (for the Intel split page logic) -/

theorem mask_lo16 (x : Nat) : x &&& 0xFFFF = x % 65536 := by
  have h : (0xFFFF : Nat) = 2 ^ 16 - 1 := by norm_num
  have h' : (65536 : Nat) = 2 ^ 16 := by norm_num
  rw [h, h', Nat.and_pow_two_sub_one_eq_mod]

theorem maskHi_testBit (i : Nat) :
    (0xFFFF0000 : Nat).testBit i = (decide (16 ≤ i) && decide (i - 16 < 16)) := by
  have h : (0xFFFF0000 : Nat) = (2 ^ 16 - 1) <<< 16 := by decide
  rw [h, Nat.testBit_shiftLeft, Nat.testBit_two_pow_sub_one]

/-- The Intel split page test: the xor of two addresses masked with
`0xFFFF0000` vanishes exactly when the addresses' 16-bit page numbers
agree. -/
theorem mask_hi_eq_zero_iff (x y : Nat) :
    ((x ^^^ y) &&& 0xFFFF0000 = 0) ↔ x / 65536 % 65536 = y / 65536 % 65536 := by
  have h65536 : (65536 : Nat) = 2 ^ 16 := by norm_num
  constructor
  · intro h
    rw [h65536, ← Nat.shiftRight_eq_div_pow, ← Nat.shiftRight_eq_div_pow]
    refine Nat.eq_of_testBit_eq (fun i => ?_)
    rw [Nat.testBit_mod_two_pow, Nat.testBit_mod_two_pow,
      Nat.testBit_shiftRight, Nat.testBit_shiftRight]
    by_cases hi : i < 16
    · simp only [hi, decide_True, Bool.true_and]
      have hbit := congrArg (fun z => z.testBit (16 + i)) h
      simp only [Nat.testBit_and, Nat.testBit_xor, Nat.zero_testBit] at hbit
      rw [maskHi_testBit] at hbit
      have hmask : (decide (16 ≤ 16 + i) && decide (16 + i - 16 < 16)) = true := by
        simp only [Bool.and_eq_true, decide_eq_true_eq]
        omega
      rw [hmask, Bool.and_true] at hbit
      cases hbx : x.testBit (16 + i) <;> cases hby : y.testBit (16 + i) <;>
        simp [hbx, hby] at hbit ⊢
    · simp [hi]
  · intro h
    refine Nat.eq_of_testBit_eq (fun i => ?_)
    rw [Nat.testBit_and, Nat.testBit_xor, Nat.zero_testBit, maskHi_testBit]
    by_cases hlo : 16 ≤ i
    · by_cases hhi : i - 16 < 16
      · have hx : x.testBit i = (x / 65536 % 65536).testBit (i - 16) := by
          rw [h65536, ← Nat.shiftRight_eq_div_pow, Nat.testBit_mod_two_pow,
            Nat.testBit_shiftRight]
          simp only [hhi, decide_True, Bool.true_and]
          congr 1
          omega
        have hy : y.testBit i = (y / 65536 % 65536).testBit (i - 16) := by
          rw [h65536, ← Nat.shiftRight_eq_div_pow, Nat.testBit_mod_two_pow,
            Nat.testBit_shiftRight]
          simp only [hhi, decide_True, Bool.true_and]
          congr 1
          omega
        rw [hx, hy, h]
        cases hb : (y / 65536 % 65536).testBit (i - 16) <;> simp [hb]
      · simp [hhi]
    · simp [hlo]

/-! ## Data-record extraction through the split loops -/

theorem dataBlocks_nil (isData : Rec → Bool) : dataBlocks isData [] = [] := rfl

theorem dataBlocks_append (isData : Rec → Bool) (l1 l2 : List Rec) :
    dataBlocks isData (l1 ++ l2) = dataBlocks isData l1 ++ dataBlocks isData l2 := by
  rw [dataBlocks, dataBlocks, dataBlocks, List.filter_append, List.map_append]

theorem dataBlocks_cons_data {isData : Rec → Bool} {r : Rec} (h : isData r = true)
    (rest : List Rec) :
    dataBlocks isData (r :: rest) = (r.address, r.data) :: dataBlocks isData rest := by
  rw [dataBlocks, dataBlocks, List.filter_cons, if_pos h, List.map_cons]

theorem dataBlocks_cons_skip {isData : Rec → Bool} {r : Rec} (h : isData r = false)
    (rest : List Rec) :
    dataBlocks isData (r :: rest) = dataBlocks isData rest := by
  rw [dataBlocks, dataBlocks, List.filter_cons, if_neg (by rw [h]; exact Bool.false_ne_true)]

/-- The data blocks of the MOS split loop tile the chunks. -/
theorem Mos.dataBlocks_splitLoop_mos :
    ∀ cs a, (∀ c ∈ cs, c ≠ []) →
      dataBlocks Mos.isData (Mos.splitLoop a cs) = chunksBlocks a cs := by
  intro cs
  induction cs with
  | nil => intro a _; rfl
  | cons c cs ih =>
    intro a h
    have hne : c ≠ [] := h c (by simp)
    have hdat : Mos.isData (Mos.buildData a c) = true := by
      have : Mos.isData (Mos.buildData a c) = decide (0 < c.length) := rfl
      rw [this, decide_eq_true_eq]
      exact List.length_pos.mpr hne
    rw [Mos.splitLoop, dataBlocks_cons_data hdat, chunksBlocks]
    exact congrArg _ (ih (a + c.length) (fun c' hc' => h c' (by simp [hc'])))

/-- The MOS terminator is not a data record. -/
theorem Mos.dataBlocks_terminator (n : Nat) :
    dataBlocks Mos.isData [Mos.buildTerminator n] = [] := rfl

/-- The data blocks of the Motorola split loop tile the chunks (for the data
tags 1, 2, 3 produced by `fit_data_tag`). -/
theorem Mot.dataBlocks_splitLoop_mot (tag : Nat) (htag : tag = 1 ∨ tag = 2 ∨ tag = 3) :
    ∀ cs a, dataBlocks Mot.isData (Mot.splitLoop tag a cs) = chunksBlocks a cs := by
  intro cs
  induction cs with
  | nil => intro a; rfl
  | cons c cs ih =>
    intro a
    have hdat : Mot.isData (Mot.buildData a c tag) = true := by
      have hfields : (Mot.buildData a c tag).tag = some tag := rfl
      rw [Mot.isData, hfields]
      rcases htag with rfl | rfl | rfl <;> rfl
    rw [Mot.splitLoop, dataBlocks_cons_data hdat, chunksBlocks]
    exact congrArg _ (ih (a + c.length))

theorem Intel.isData_buildELA (x : Nat) : Intel.isData (Intel.buildELA x) = false := rfl

theorem Intel.isData_buildData (x : Nat) (dat : List Nat) :
    Intel.isData (Intel.buildData x dat) = true := rfl

theorem Intel.buildData_address (x : Nat) (dat : List Nat) :
    (Intel.buildData x dat).address = x := rfl

theorem Intel.buildData_data (x : Nat) (dat : List Nat) :
    (Intel.buildData x dat).data = dat := rfl

/-- None of the three termination records carries data. -/
theorem Intel.dataBlocks_terminate (s : Nat) :
    dataBlocks Intel.isData (Intel.terminate s) = [] := rfl

/-- Unfolding equation for the Intel split chunk loop. -/
theorem Intel.splitLoop_cons (a aOld : Nat) (c : List Nat) (cs : List (List Nat)) :
    Intel.splitLoop a aOld (c :: cs) =
      if (a + c.length) &&& 0xFFFF ≠ 0 ∧
          (a ^^^ (a + c.length)) &&& 0xFFFF0000 ≠ 0 then
        Intel.buildData a (c.take (c.length - ((a + c.length) &&& 0xFFFF))) ::
          Intel.buildELA (a + (c.length - ((a + c.length) &&& 0xFFFF))) ::
            Intel.buildData (a + (c.length - ((a + c.length) &&& 0xFFFF)))
                (c.drop (c.length - ((a + c.length) &&& 0xFFFF))) ::
              Intel.splitLoop
                (a + (c.length - ((a + c.length) &&& 0xFFFF)) +
                  ((a + c.length) &&& 0xFFFF))
                (a + (c.length - ((a + c.length) &&& 0xFFFF))) cs
      else
        (if (a ^^^ aOld) &&& 0xFFFF0000 ≠ 0 then [Intel.buildELA a] else []) ++
          Intel.buildData a c :: Intel.splitLoop (a + c.length) a cs := rfl

/-- The data blocks of the Intel split loop tile the chunks: splitting a
chunk at a 64 KiB boundary preserves contiguity. -/
theorem Intel.splitLoop_tiling :
    ∀ cs a aOld, (∀ c ∈ cs, c ≠ [] ∧ c.length < 65536) →
      Tiling a cs.flatten (dataBlocks Intel.isData (Intel.splitLoop a aOld cs)) := by
  intro cs
  induction cs with
  | nil => intro a aOld _; exact Tiling.nil a
  | cons c cs ih =>
    intro a aOld h
    obtain ⟨hne, hlen⟩ := h c (by simp)
    have hlen1 : 1 ≤ c.length := List.length_pos.mpr hne
    have htail : ∀ c' ∈ cs, c' ≠ [] ∧ c'.length < 65536 :=
      fun c' hc' => h c' (by simp [hc'])
    rw [List.flatten_cons, Intel.splitLoop_cons]
    by_cases hbr : (a + c.length) &&& 0xFFFF ≠ 0 ∧
        (a ^^^ (a + c.length)) &&& 0xFFFF0000 ≠ 0
    · rw [if_pos hbr]
      obtain ⟨hov, hcross⟩ := hbr
      rw [mask_lo16] at hov ⊢
      have hne' : ¬ a / 65536 % 65536 = (a + c.length) / 65536 % 65536 :=
        fun he => hcross ((mask_hi_eq_zero_iff _ _).mpr he)
      have hp1 : 0 < c.length - (a + c.length) % 65536 := by omega
      have hp2 : c.length - (a + c.length) % 65536 < c.length := by omega
      rw [dataBlocks_cons_data (Intel.isData_buildData _ _),
        dataBlocks_cons_skip (Intel.isData_buildELA _),
        dataBlocks_cons_data (Intel.isData_buildData _ _),
        Intel.buildData_address, Intel.buildData_data,
        Intel.buildData_address, Intel.buildData_data]
      have hsplit : c ++ cs.flatten =
          c.take (c.length - (a + c.length) % 65536) ++
            (c.drop (c.length - (a + c.length) % 65536) ++ cs.flatten) := by
        rw [← List.append_assoc, List.take_append_drop]
      rw [hsplit]
      have htake : (c.take (c.length - (a + c.length) % 65536)).length =
          c.length - (a + c.length) % 65536 := by
        rw [List.length_take]
        omega
      refine Tiling.cons a _ _ _ ?_ ?_
      · intro hh
        rcases List.take_eq_nil_iff.mp hh with h0 | h0
        · omega
        · exact hne h0
      · rw [htake]
        refine Tiling.cons _ _ _ _ ?_ ?_
        · intro hh
          have := congrArg List.length hh
          rw [List.length_drop] at this
          simp only [List.length_nil] at this
          omega
        · have hdl : a + (c.length - (a + c.length) % 65536) +
              (c.drop (c.length - (a + c.length) % 65536)).length =
              a + (c.length - (a + c.length) % 65536) + (a + c.length) % 65536 := by
            rw [List.length_drop]
            omega
          rw [hdl]
          exact ih _ _ htail
    · rw [if_neg hbr, dataBlocks_append]
      have hela : dataBlocks Intel.isData
          (if (a ^^^ aOld) &&& 0xFFFF0000 ≠ 0 then [Intel.buildELA a] else []) = [] := by
        split_ifs <;> rfl
      rw [hela, List.nil_append, dataBlocks_cons_data (Intel.isData_buildData _ _),
        Intel.buildData_address, Intel.buildData_data]
      exact Tiling.cons a c cs.flatten _ hne (ih (a + c.length) a htail)

/-- Every data record yielded by the Intel split loop is non-empty and lies
within a single 64 KiB page. -/
theorem Intel.splitLoop_page :
    ∀ cs a aOld, (∀ c ∈ cs, c ≠ [] ∧ c.length < 65536) →
      ∀ r ∈ Intel.splitLoop a aOld cs, Intel.isData r = true →
        r.data ≠ [] ∧ r.address / 65536 = (r.address + r.data.length - 1) / 65536 := by
  intro cs
  induction cs with
  | nil => intro a aOld _ r hr; cases hr
  | cons c cs ih =>
    intro a aOld h r hr hdata
    obtain ⟨hne, hlen⟩ := h c (by simp)
    have hlen1 : 1 ≤ c.length := List.length_pos.mpr hne
    have htail : ∀ c' ∈ cs, c' ≠ [] ∧ c'.length < 65536 :=
      fun c' hc' => h c' (List.mem_cons_of_mem _ hc')
    rw [Intel.splitLoop_cons] at hr
    by_cases hbr : (a + c.length) &&& 0xFFFF ≠ 0 ∧
        (a ^^^ (a + c.length)) &&& 0xFFFF0000 ≠ 0
    · rw [if_pos hbr] at hr
      obtain ⟨hov, hcross⟩ := hbr
      rw [mask_lo16] at hov hr
      have hne' : ¬ a / 65536 % 65536 = (a + c.length) / 65536 % 65536 :=
        fun he => hcross ((mask_hi_eq_zero_iff _ _).mpr he)
      have hp1 : 0 < c.length - (a + c.length) % 65536 := by omega
      have hp2 : c.length - (a + c.length) % 65536 < c.length := by omega
      have hp3 : (a + (c.length - (a + c.length) % 65536)) % 65536 = 0 := by omega
      rcases List.mem_cons.mp hr with rfl | hr1
      · refine ⟨?_, ?_⟩
        · rw [Intel.buildData_data]
          intro hh
          rcases List.take_eq_nil_iff.mp hh with h0 | h0
          · omega
          · exact hne h0
        · rw [Intel.buildData_address, Intel.buildData_data, List.length_take]
          omega
      rcases List.mem_cons.mp hr1 with rfl | hr2
      · rw [Intel.isData_buildELA] at hdata
        simp at hdata
      rcases List.mem_cons.mp hr2 with rfl | hr3
      · refine ⟨?_, ?_⟩
        · rw [Intel.buildData_data]
          intro hh
          have := congrArg List.length hh
          rw [List.length_drop] at this
          simp only [List.length_nil] at this
          omega
        · rw [Intel.buildData_address, Intel.buildData_data, List.length_drop]
          omega
      · exact ih _ _ htail r hr3 hdata
    · rw [if_neg hbr] at hr
      rw [List.mem_append] at hr
      rcases hr with hela | hr1
      · split_ifs at hela
        · have := List.mem_singleton.mp hela
          subst this
          rw [Intel.isData_buildELA] at hdata
          simp at hdata
        · cases hela
      rcases List.mem_cons.mp hr1 with rfl | hr2
      · refine ⟨by rw [Intel.buildData_data]; exact hne, ?_⟩
        rw [Intel.buildData_address, Intel.buildData_data]
        by_cases hov : (a + c.length) &&& 0xFFFF = 0
        · rw [mask_lo16] at hov
          omega
        · have hcr : (a ^^^ (a + c.length)) &&& 0xFFFF0000 = 0 := by
            by_contra hcr
            exact hbr ⟨hov, hcr⟩
          have heq := (mask_hi_eq_zero_iff _ _).mp hcr
          omega
      · exact ih _ _ htail r hr2 hdata

/-! ## Split evaluation lemmas -/

theorem exceptBind_ok {α β : Type} (a : α) (f : α → Except String β) :
    (Except.ok a : Except String α).bind f = f a := rfl

theorem exceptBind_error {α β : Type} (e : String) (f : α → Except String β) :
    (Except.error e : Except String α).bind f = .error e := rfl

/-- If the tiled bytes of a record list's data blocks are `d` starting at
`a`, then `records_to_blocks` returns the single block `(a, d)`. -/
theorem recordsToBlocks_eq_single {isData : Rec → Bool} {rs : List Rec}
    {a : Nat} {d : List Nat} (hd : d ≠ [])
    (ht : Tiling a d (dataBlocks isData rs)) :
    recordsToBlocks isData rs = [(a, d)] := by
  rw [recordsToBlocks]
  exact mergeUnion_singletons_tiling ht hd

/-- `Mos.split` with in-range arguments evaluates to its record list. -/
theorem Mos.split_eval_mos (d : List Nat) (a : Nat) (columns : Nat)
    (h1 : a < 65536) (h2 : a + d.length ≤ 65536)
    (h3 : 0 < columns ∧ columns < 256) :
    Mos.split d a columns true true =
      .ok (Mos.splitLoop a (chop d columns (a % columns)) ++
        [Mos.buildTerminator (chop d columns (a % columns)).length]) := by
  unfold Mos.split
  rw [if_neg (by omega), if_neg (by omega), if_neg (by simpa using h3)]
  rfl

/-- `Intel.split` with in-range arguments evaluates to its record list. -/
theorem Intel.split_eval_intel (d : List Nat) (a : Nat) (columns : Nat)
    (h1 : a < 4294967296) (h2 : a + d.length ≤ 4294967296)
    (h3 : 0 < columns ∧ columns < 255) :
    Intel.split d a columns true true none =
      .ok (Intel.splitLoop a 0 (chop d columns (a % columns)) ++
        Intel.terminate a) := by
  unfold Intel.split
  rw [if_neg (by omega), if_neg (by omega), if_neg (by simpa using h3)]
  rfl

/-- `Mot.split` with in-range arguments evaluates to binding the fitted data
tag and the count record. -/
theorem Mot.split_eval_mot (d : List Nat) (a : Nat) (columns : Nat)
    (h1 : a < 4294967296) (h2 : a + d.length ≤ 4294967296)
    (h3 : 0 < columns ∧ columns < 128) :
    Mot.split d a columns true true none none [] =
      (Mot.fitDataTag (a + d.length)).bind (fun tag =>
        (Mot.buildCount (chop d columns (a % columns)).length).bind (fun countRec =>
          Except.ok ([Mot.buildHeader []] ++
            Mot.splitLoop tag a (chop d columns (a % columns)) ++
            [countRec, Mot.buildTerminator a tag]))) := by
  unfold Mot.split
  rw [if_neg (by omega), if_neg (by omega), if_neg (by simpa using h3)]
  rfl

theorem Mot.fitDataTag_ok (endex : Nat) (h : endex ≤ 4294967296) :
    ∃ t, Mot.fitDataTag endex = .ok t ∧ (t = 1 ∨ t = 2 ∨ t = 3) := by
  unfold Mot.fitDataTag
  rw [if_neg (by omega)]
  split_ifs
  · exact ⟨1, rfl, Or.inl rfl⟩
  · exact ⟨2, rfl, Or.inr (Or.inl rfl)⟩
  · exact ⟨3, rfl, Or.inr (Or.inr rfl)⟩

theorem Mot.buildCount_ok (n : Nat) (h : n < 16777216) :
    ∃ cr, Mot.buildCount n = .ok cr ∧ Mot.isData cr = false := by
  unfold Mot.buildCount Mot.fitCountTag
  rw [if_neg (by omega)]
  split_ifs
  · exact ⟨_, rfl, rfl⟩
  · exact ⟨_, rfl, rfl⟩

theorem Mot.buildCount_overflow (n : Nat) (h : ¬ n < 16777216) :
    Mot.buildCount n = .error "count overflow" := by
  unfold Mot.buildCount Mot.fitCountTag
  rw [if_pos (by omega)]
  rfl

theorem Mot.isData_buildHeader (dat : List Nat) :
    Mot.isData (Mot.buildHeader dat) = false := rfl

theorem Mot.isData_buildTerminator (s t : Nat) :
    Mot.isData (Mot.buildTerminator s t) = false := by
  unfold Mot.buildTerminator Mot.isData
  split_ifs <;> rfl

/-- Number of chunks produced by `chopGo` at window 16. -/
theorem chopGo16_length : ∀ fuel (dat : List Nat), dat.length ≤ fuel →
    (chopGo 16 fuel dat).length = (dat.length + 15) / 16 := by
  intro fuel
  induction fuel with
  | zero =>
    intro dat h
    cases dat with
    | nil => rfl
    | cons x xs => simp at h
  | succ fuel ih =>
    intro dat h
    cases dat with
    | nil => rfl
    | cons x xs =>
      rw [chopGo, List.length_cons,
        ih _ (by simp only [List.length_drop, List.length_cons] at h ⊢; omega),
        List.length_drop]
      simp only [List.length_cons]
      omega

/-! ## Claim C1 -/

/-- C1: `merge_records` applied to a vector of data-record sequences (each
internally non-overlapping and sorted) satisfies last-writer-wins on its
output blocks: a byte of an input record not covered by any later
(higher-priority) input sequence appears unchanged at its original address;
a byte covered by a later sequence takes the value of the highest-priority
covering sequence; and the output block sequence is sorted by start address,
non-overlapping, and free of empty blocks. -/
theorem merge_records_last_writer_wins
    (srcs : List (List Rec))
    (hwf : ∀ rs ∈ srcs, seqWF (recBlocks rs) = true)
    (i : Nat) (hi : i < srcs.length)
    (r : Rec) (hr : r ∈ srcs[i])
    (k : Nat) (hk : k < r.data.length) :
    ((∀ j, i < j → (hj : j < srcs.length) → ∀ r' ∈ srcs[j],
        ¬ blockCovers (r'.address, r'.data) (r.address + k)) →
      blocksAt (mergeRecordsBlocks srcs) (r.address + k) = r.data[k]?) ∧
    (∀ j, i < j → (hj : j < srcs.length) → ∀ r' ∈ srcs[j],
      blockCovers (r'.address, r'.data) (r.address + k) →
      (∀ j', j < j' → (hj' : j' < srcs.length) → ∀ r'' ∈ srcs[j'],
        ¬ blockCovers (r''.address, r''.data) (r.address + k)) →
      blocksAt (mergeRecordsBlocks srcs) (r.address + k) =
        r'.data[(r.address + k) - r'.address]?) ∧
    seqWF (mergeRecordsBlocks srcs) = true ∧
    (∀ b ∈ mergeRecordsBlocks srcs, b.2 ≠ []) := by
  have hlen : (srcs.map recBlocks).length = srcs.length := List.length_map _ _
  have hgetmap : ∀ j, (hj : j < srcs.length) →
      ∀ (hjm : j < (srcs.map recBlocks).length),
      (srcs.map recBlocks)[j] = recBlocks srcs[j] := by
    intro j hj hjm
    exact List.getElem_map recBlocks
  have hat : ∀ x, blocksAt (mergeRecordsBlocks srcs) x =
      unionAt (srcs.map recBlocks) x := by
    intro x
    exact mergeUnion_at _ x
  refine ⟨?_, ?_, mergeUnion_wf _, mergeUnion_nonempty _⟩
  · intro hlater
    rw [hat]
    have hcov : blockCovers (r.address, r.data) (r.address + k) :=
      ⟨Nat.le_add_right _ _, by simp only; omega⟩
    have := unionAt_topmost (srcs.map recBlocks) i (by omega)
      (r.address, r.data)
      (by rw [hgetmap i hi (by omega)]; exact List.mem_map_of_mem _ hr)
      (r.address + k) hcov
      (by rw [hgetmap i hi (by omega)]; exact hwf srcs[i] (List.getElem_mem hi))
      ?_
    · rw [this]
      simp only
      rw [Nat.add_sub_cancel_left]
    · intro j' hij' hj'
      rw [hgetmap j' (by omega) (by omega)]
      refine blocksAt_eq_none_of_not_covers (fun b hb => ?_)
      obtain ⟨r'', hr'', rfl⟩ := List.mem_map.mp hb
      exact hlater j' hij' (by omega) r'' hr''
  · intro j hij hj r' hr' hcov' htop
    rw [hat]
    exact unionAt_topmost (srcs.map recBlocks) j (by omega)
      (r'.address, r'.data)
      (by rw [hgetmap j hj (by omega)]; exact List.mem_map_of_mem _ hr')
      (r.address + k) hcov'
      (by rw [hgetmap j hj (by omega)]; exact hwf srcs[j] (List.getElem_mem hj))
      (by
        intro j' hjj' hj'
        rw [hgetmap j' (by omega) (by omega)]
        refine blocksAt_eq_none_of_not_covers (fun b hb => ?_)
        obtain ⟨r'', hr'', rfl⟩ := List.mem_map.mp hb
        exact htop j' hjj' (by omega) r'' hr'')

/-- Witness for C1 at a concrete input: two sources, the later one
overwriting address 1. -/
theorem merge_records_last_writer_wins_witness :
    (∀ rs ∈ ([[⟨0, none, [1, 2], 2, none⟩], [⟨1, none, [9], 1, none⟩]] :
        List (List Rec)), seqWF (recBlocks rs) = true) ∧
    0 < ([[⟨0, none, [1, 2], 2, none⟩], [⟨1, none, [9], 1, none⟩]] :
        List (List Rec)).length ∧
    (⟨0, none, [1, 2], 2, none⟩ : Rec) ∈
      ([[⟨0, none, [1, 2], 2, none⟩], [⟨1, none, [9], 1, none⟩]] :
        List (List Rec))[0] ∧
    0 < (⟨0, none, [1, 2], 2, none⟩ : Rec).data.length ∧
    (((∀ j, 0 < j → (hj : j < ([[⟨0, none, [1, 2], 2, none⟩],
          [⟨1, none, [9], 1, none⟩]] : List (List Rec)).length) →
        ∀ r' ∈ ([[⟨0, none, [1, 2], 2, none⟩], [⟨1, none, [9], 1, none⟩]] :
          List (List Rec))[j],
        ¬ blockCovers (r'.address, r'.data)
          ((⟨0, none, [1, 2], 2, none⟩ : Rec).address + 0)) →
      blocksAt (mergeRecordsBlocks [[⟨0, none, [1, 2], 2, none⟩],
          [⟨1, none, [9], 1, none⟩]])
        ((⟨0, none, [1, 2], 2, none⟩ : Rec).address + 0) =
        (⟨0, none, [1, 2], 2, none⟩ : Rec).data[0]?) ∧
    (∀ j, 0 < j → (hj : j < ([[⟨0, none, [1, 2], 2, none⟩],
          [⟨1, none, [9], 1, none⟩]] : List (List Rec)).length) →
      ∀ r' ∈ ([[⟨0, none, [1, 2], 2, none⟩], [⟨1, none, [9], 1, none⟩]] :
        List (List Rec))[j],
      blockCovers (r'.address, r'.data)
        ((⟨0, none, [1, 2], 2, none⟩ : Rec).address + 0) →
      (∀ j', j < j' → (hj' : j' < ([[⟨0, none, [1, 2], 2, none⟩],
            [⟨1, none, [9], 1, none⟩]] : List (List Rec)).length) →
        ∀ r'' ∈ ([[⟨0, none, [1, 2], 2, none⟩], [⟨1, none, [9], 1, none⟩]] :
          List (List Rec))[j'],
        ¬ blockCovers (r''.address, r''.data)
          ((⟨0, none, [1, 2], 2, none⟩ : Rec).address + 0)) →
      blocksAt (mergeRecordsBlocks [[⟨0, none, [1, 2], 2, none⟩],
          [⟨1, none, [9], 1, none⟩]])
        ((⟨0, none, [1, 2], 2, none⟩ : Rec).address + 0) =
        r'.data[((⟨0, none, [1, 2], 2, none⟩ : Rec).address + 0) -
          r'.address]?) ∧
    seqWF (mergeRecordsBlocks [[⟨0, none, [1, 2], 2, none⟩],
        [⟨1, none, [9], 1, none⟩]]) = true ∧
    (∀ b ∈ mergeRecordsBlocks [[⟨0, none, [1, 2], 2, none⟩],
        [⟨1, none, [9], 1, none⟩]], b.2 ≠ [])) := by
  refine ⟨by decide, by decide, by decide, by decide, ?_⟩
  exact merge_records_last_writer_wins
    [[⟨0, none, [1, 2], 2, none⟩], [⟨1, none, [9], 1, none⟩]]
    (by decide) 0 (by decide) ⟨0, none, [1, 2], 2, none⟩ (by decide) 0 (by decide)

/-! ## Claim C2 -/

/-- C2 (amended): for every non-empty byte buffer `d` and address `a` with
`a + len(d)` within the format's address width,
`records_to_blocks(list(split(d, address=a)))` (defaults: 16 columns,
aligned, standalone) equals `[(a, d)]` — with the extra proviso, for the
Motorola format, that the number of emitted data records fits the count
record (fewer than 2^24 records); otherwise Motorola `split` raises a
count-overflow error (see the counterexample). -/
theorem records_to_blocks_split_roundtrip
    (d : List Nat) (a : Nat) (hd : d ≠ []) :
    (a + d.length ≤ 65536 →
      ∃ rs, Mos.split d a 16 true true = .ok rs ∧
        recordsToBlocks Mos.isData rs = [(a, d)]) ∧
    (a + d.length ≤ 4294967296 →
      ∃ rs, Intel.split d a 16 true true none = .ok rs ∧
        recordsToBlocks Intel.isData rs = [(a, d)]) ∧
    (a + d.length ≤ 4294967296 → (chop d 16 (a % 16)).length < 16777216 →
      ∃ rs, Mot.split d a 16 true true none none [] = .ok rs ∧
        recordsToBlocks Mot.isData rs = [(a, d)]) := by
  have hlen1 : 1 ≤ d.length := List.length_pos.mpr hd
  have hchunks_ne : ∀ c ∈ chop d 16 (a % 16), c ≠ [] :=
    fun c hc => (chop_mem d 16 (a % 16) (by decide) c hc).1
  have hchunkbnd : ∀ c ∈ chop d 16 (a % 16), c ≠ [] ∧ c.length < 65536 :=
    fun c hc => ⟨(chop_mem d 16 (a % 16) (by decide) c hc).1,
      by have := (chop_mem d 16 (a % 16) (by decide) c hc).2; omega⟩
  have hflat : (chop d 16 (a % 16)).flatten = d :=
    chop_flatten d 16 (a % 16) (by decide)
  refine ⟨?_, ?_, ?_⟩
  · intro h2
    refine ⟨_, Mos.split_eval_mos d a 16 (by omega) h2 (by decide), ?_⟩
    refine recordsToBlocks_eq_single hd ?_
    rw [dataBlocks_append, Mos.dataBlocks_splitLoop_mos _ a hchunks_ne,
      Mos.dataBlocks_terminator, List.append_nil]
    have := chunks_tiling (chop d 16 (a % 16)) a hchunks_ne
    rwa [hflat] at this
  · intro h2
    refine ⟨_, Intel.split_eval_intel d a 16 (by omega) h2 (by decide), ?_⟩
    refine recordsToBlocks_eq_single hd ?_
    rw [dataBlocks_append, Intel.dataBlocks_terminate, List.append_nil]
    have := Intel.splitLoop_tiling (chop d 16 (a % 16)) a 0 hchunkbnd
    rwa [hflat] at this
  · intro h2 hcnt
    obtain ⟨t, ht, htval⟩ := Mot.fitDataTag_ok (a + d.length) h2
    obtain ⟨cr, hcr, hcrdata⟩ := Mot.buildCount_ok _ hcnt
    have hok : Mot.split d a 16 true true none none [] =
        .ok ([Mot.buildHeader []] ++ Mot.splitLoop t a (chop d 16 (a % 16)) ++
          [cr, Mot.buildTerminator a t]) := by
      rw [Mot.split_eval_mot d a 16 (by omega) h2 (by decide), ht, exceptBind_ok,
        hcr, exceptBind_ok]
    refine ⟨_, hok, ?_⟩
    refine recordsToBlocks_eq_single hd ?_
    rw [dataBlocks_append, dataBlocks_append,
      dataBlocks_cons_skip (Mot.isData_buildHeader _), dataBlocks_nil,
      List.nil_append, Mot.dataBlocks_splitLoop_mot t htval,
      dataBlocks_cons_skip hcrdata,
      dataBlocks_cons_skip (Mot.isData_buildTerminator _ _), dataBlocks_nil,
      List.append_nil]
    have := chunks_tiling (chop d 16 (a % 16)) a hchunks_ne
    rwa [hflat] at this

/-- Any buffer of exactly 2^28 bytes makes the Motorola split overflow its
count record. -/
theorem mot_split_count_overflow_of_length (d : List Nat)
    (hlen : d.length = 268435456) :
    Mot.split d 0 16 true true none none [] = .error "count overflow" := by
  have hc1 : chop d 16 (0 % 16) = chopGo 16 d.length d := rfl
  have hchop : (chop d 16 (0 % 16)).length = 16777216 := by
    rw [hc1, chopGo16_length _ _ (Nat.le_refl _), hlen]
  rw [Mot.split_eval_mot d 0 16 (by norm_num) (by omega) (by decide)]
  have hft : Mot.fitDataTag (0 + d.length) = .ok 3 := by
    rw [hlen]
    unfold Mot.fitDataTag
    rw [if_neg (by norm_num), if_neg (by norm_num), if_neg (by norm_num)]
  rw [hft, exceptBind_ok, Mot.buildCount_overflow _ (by rw [hchop]; omega),
    exceptBind_error]

/-- C2 counterexample: for the Motorola format the claim as stated fails on
the valid 2^28-byte buffer at address 0 (well within the 32-bit width):
`split` raises a count-overflow error instead of yielding records, so
`records_to_blocks(list(split(d, address=0)))` is not `[(0, d)]`. -/
theorem records_to_blocks_split_counterexample :
    Mot.split (List.replicate 268435456 0) 0 16 true true none none [] =
      .error "count overflow" :=
  mot_split_count_overflow_of_length _ (List.length_replicate _ _)

/-- Witness for C2 at `d = [1, 2, 3]`, `a = 0`: all three formats round-trip
to the single block. -/
theorem records_to_blocks_split_roundtrip_witness :
    (([1, 2, 3] : List Nat) ≠ []) ∧
    (∃ rs, Mos.split [1, 2, 3] 0 16 true true = .ok rs ∧
        recordsToBlocks Mos.isData rs = [(0, [1, 2, 3])]) ∧
    (∃ rs, Intel.split [1, 2, 3] 0 16 true true none = .ok rs ∧
        recordsToBlocks Intel.isData rs = [(0, [1, 2, 3])]) ∧
    (∃ rs, Mot.split [1, 2, 3] 0 16 true true none none [] = .ok rs ∧
        recordsToBlocks Mot.isData rs = [(0, [1, 2, 3])]) := by
  obtain ⟨p1, p2, p3⟩ := records_to_blocks_split_roundtrip [1, 2, 3] 0 (by decide)
  exact ⟨by decide, p1 (by decide), p2 (by decide), p3 (by decide) (by decide)⟩

/-! ## Claim C4 -/

/-- C4: the MOS data-record checksum implementation deviates from the spec
formula.  The code (mos.py line 72) adds `address >> 16` — identically zero
on the format's 16-bit address space enforced by `check()` — where the spec
(§4.4) prescribes the address high byte `(address >> 8) & 0xFF`.  At the
record from the module's own `build_data` doctest (`address = 0x1234`,
`data = b'Hello, World!'`), which passes `check()`, the code computes
`0x04AA` while the spec formula gives `0x04BC`. -/
theorem mos_checksum_divergence :
    Mos.computeChecksum (Mos.buildData 0x1234
        [72, 101, 108, 108, 111, 44, 32, 87, 111, 114, 108, 100, 33]) = 0x4AA ∧
    Mos.specChecksum (Mos.buildData 0x1234
        [72, 101, 108, 108, 111, 44, 32, 87, 111, 114, 108, 100, 33]) = 0x4BC ∧
    Mos.check (Mos.buildData 0x1234
        [72, 101, 108, 108, 111, 44, 32, 87, 111, 114, 108, 100, 33]) =
      .ok () := by
  refine ⟨by decide, by decide, by decide⟩

/-! ## Claim C5 -/

/-- C5 counterexample: two records agreeing on address, tag and data but
with different checksum fields (here an Intel data record with its correct
checksum `0xFF` and one with the explicit wrong checksum `7`) compare equal
under `Record.__eq__`, contradicting the claim that equality also covers the
`count` and `checksum` fields. -/
theorem record_eq_counterexample :
    recordEq (Intel.make 0 0 [0] .auto) (Intel.make 0 0 [0] (.given 7)) = true ∧
    (Intel.make 0 0 [0] .auto).checksum ≠ (Intel.make 0 0 [0] (.given 7)).checksum := by
  refine ⟨by decide, by decide⟩

/-- C5 (amended): record equality compares exactly the three fields
`address`, `tag` and `data`; `count` and `checksum` are ignored. -/
theorem record_eq_iff (r1 r2 : Rec) :
    recordEq r1 r2 = true ↔
      (r1.address = r2.address ∧ r1.tag = r2.tag ∧ r1.data = r2.data) := by
  rw [recordEq]
  simp only [Bool.and_eq_true, beq_iff_eq]
  tauto

/-! ## Claim C7 -/

/-- C7 counterexample: a MOS data record whose address plus size exceeds the
16-bit address space (`address = 0xFFFF`, two data bytes) passes `check()`
without error, contradicting the claim that `check()` raises whenever
`address + len(data)` exceeds the format's width. -/
theorem check_width_counterexample :
    Mos.check (Mos.buildData 0xFFFF [1, 2]) = .ok () ∧
    65536 < (Mos.buildData 0xFFFF [1, 2]).address +
      (Mos.buildData 0xFFFF [1, 2]).data.length := by
  refine ⟨by decide, by decide⟩

/-- C7 (amended): the MOS `check()` bounds the address (but not
`address + size`) to 16 bits, raising an address-overflow error beyond;
for Intel the 32-bit address and size bounds are enforced by the record
constructor (`__init__`), not by `check()` — Intel `check()` itself passes
at every address (checksum-absent data record at any address); and Motorola
`check()` enforces no address-width bound at all: a checksum-absent data
record at any address, however large, passes. -/
theorem check_address_width :
    (∀ r : Rec, Mos.check r = .ok () → r.address < 65536) ∧
    (∀ r : Rec, 65536 ≤ r.address → Mos.check r = .error "address overflow") ∧
    (∀ (a t : Nat) (dat : List Nat) (cks : Cks), t ≤ 5 →
      ((∃ r, Intel.init a t dat cks = .ok r) ↔
        a < 4294967296 ∧ a + dat.length ≤ 4294967296)) ∧
    (∀ a : Nat, Intel.check (Intel.make a Intel.DATA [] .absent) = .ok ()) ∧
    (∀ a : Nat, Mot.check (Mot.make a 1 [] .absent) = .ok ()) := by
  have herr : ∀ r : Rec, 65536 ≤ r.address →
      Mos.check r = .error "address overflow" := by
    intro r hr
    unfold Mos.check
    rw [if_pos (by omega)]
    rfl
  refine ⟨?_, herr, ?_, fun a => rfl, fun a => rfl⟩
  · intro r hok
    by_contra hge
    rw [herr r (by omega)] at hok
    cases hok
  · intro a t dat cks ht
    constructor
    · rintro ⟨r, hr⟩
      unfold Intel.init at hr
      by_cases h1 : a < 4294967296
      · by_cases h2 : a + dat.length ≤ 4294967296
        · exact ⟨h1, h2⟩
        · rw [if_neg (by omega), if_pos (by omega)] at hr
          cases hr
      · rw [if_pos (by omega)] at hr
        cases hr
    · rintro ⟨h1, h2⟩
      exact ⟨Intel.make a t dat cks, by
        unfold Intel.init
        rw [if_neg (by omega), if_neg (by omega), if_neg (by omega)]⟩

/-- Witness for C7 at concrete records: a valid MOS record is bounded, an
out-of-range one is rejected, the Intel constructor accepts exactly the
in-width input, and Intel and Motorola `check()` both pass at the
out-of-width address `2^33`. -/
theorem check_address_width_witness :
    (Mos.check (Mos.buildData 5 [1]) = .ok () → (Mos.buildData 5 [1]).address < 65536) ∧
    (65536 ≤ (70000 : Nat) → Mos.check ⟨70000, none, [], 0, none⟩ = .error "address overflow") ∧
    ((0 : Nat) ≤ 5 →
      ((∃ r, Intel.init 7 0 [1] .auto = .ok r) ↔
        7 < 4294967296 ∧ 7 + ([1] : List Nat).length ≤ 4294967296)) ∧
    Intel.check (Intel.make 8589934592 Intel.DATA [] .absent) = .ok () ∧
    Mot.check (Mot.make 8589934592 1 [] .absent) = .ok () := by
  obtain ⟨p1, p2, p3, p4, p5⟩ := check_address_width
  exact ⟨p1 _, fun h => p2 _ (by exact h), fun h => p3 7 0 [1] .auto h,
    p4 8589934592, p5 8589934592⟩

/-! ## Claims C9 and C10 -/

/-- `Intel.split` evaluated for arbitrary `align`, `standalone`, `start`. -/
theorem Intel.split_eval_full (d : List Nat) (a columns : Nat)
    (align standalone : Bool) (start : Option Nat)
    (h1 : a < 4294967296) (h2 : a + d.length ≤ 4294967296)
    (h3 : 0 < columns ∧ columns < 255) :
    Intel.split d a columns align standalone start =
      .ok (Intel.splitLoop a 0
          (chop d columns (if align then a % columns else 0)) ++
        if standalone then Intel.terminate (start.getD a) else []) := by
  unfold Intel.split
  rw [if_neg (by omega), if_neg (by omega), if_neg (by simpa using h3)]

/-- The three termination records are never data records. -/
theorem Intel.isData_terminate (s : Nat) :
    ∀ r ∈ Intel.terminate s, Intel.isData r = false := by
  intro r hr
  rcases List.mem_cons.mp hr with rfl | hr1
  · rfl
  rcases List.mem_cons.mp hr1 with rfl | hr2
  · rfl
  · have := List.mem_singleton.mp hr2
    subst this
    rfl

/-- C9: splitting `b'A' * 32` at address `0x0FFF8` with `columns = 16`
yields an EXTENDED_LINEAR_ADDRESS record exactly between the data record
ending at `0x10000` and the data record starting at `0x10000`. -/
theorem intel_split_64k_crossing :
    ∃ rs, Intel.split (List.replicate 32 65) 65528 16 true true none = .ok rs ∧
      ∃ i,
        (∃ r0, rs[i]? = some r0 ∧ Intel.isData r0 = true ∧
          r0.address + r0.data.length = 65536) ∧
        (∃ r1, rs[i + 1]? = some r1 ∧
          r1.tag = some Intel.EXTENDED_LINEAR_ADDRESS) ∧
        (∃ r2, rs[i + 2]? = some r2 ∧ Intel.isData r2 = true ∧
          r2.address = 65536) := by
  refine ⟨_, Intel.split_eval_intel (List.replicate 32 65) 65528 16 (by norm_num)
    (by decide) (by decide), ?_⟩
  refine ⟨0, ⟨Intel.buildData 65528 (List.replicate 8 65), ?_, by decide, by decide⟩,
    ⟨Intel.buildELA 65536, ?_, by decide⟩,
    ⟨Intel.buildData 65536 (List.replicate 16 65), ?_, by decide, by decide⟩⟩ <;>
    decide

/-- C10: every DATA record yielded by Intel `Record.split` (any alignment,
start and standalone flags, any in-range columns) is non-empty and lies
entirely within one 64 KiB page: the high 16 bits of its first and last
byte addresses coincide. -/
theorem intel_split_data_single_page
    (d : List Nat) (a columns : Nat) (align standalone : Bool)
    (start : Option Nat)
    (h1 : a < 4294967296) (h2 : a + d.length ≤ 4294967296)
    (h3 : 0 < columns ∧ columns < 255) :
    ∃ rs, Intel.split d a columns align standalone start = .ok rs ∧
      ∀ r ∈ rs, Intel.isData r = true →
        r.data ≠ [] ∧ r.address >>> 16 = (r.address + r.data.length - 1) >>> 16 := by
  refine ⟨_, Intel.split_eval_full d a columns align standalone start h1 h2 h3, ?_⟩
  intro r hr hdata
  rw [List.mem_append] at hr
  rcases hr with hloop | hterm
  · have hchunks : ∀ c ∈ chop d columns (if align then a % columns else 0),
        c ≠ [] ∧ c.length < 65536 := by
      intro c hc
      obtain ⟨hc1, hc2⟩ := chop_mem d columns _ h3.1 c hc
      exact ⟨hc1, by omega⟩
    have hp := Intel.splitLoop_page _ a 0 hchunks r hloop hdata
    refine ⟨hp.1, ?_⟩
    rw [Nat.shiftRight_eq_div_pow, Nat.shiftRight_eq_div_pow]
    have h16 : (2 : Nat) ^ 16 = 65536 := by norm_num
    rw [h16]
    exact hp.2
  · by_cases hs : standalone = true
    · rw [hs, if_pos rfl] at hterm
      rw [Intel.isData_terminate _ r hterm] at hdata
      cases hdata
    · rw [if_neg hs] at hterm
      cases hterm

/-- Witness for C10 at a page-crossing input. -/
theorem intel_split_data_single_page_witness :
    (65535 : Nat) < 4294967296 ∧ 65535 + ([7, 8] : List Nat).length ≤ 4294967296 ∧
    ((0 : Nat) < 3 ∧ (3 : Nat) < 255) ∧
    (∃ rs, Intel.split [7, 8] 65535 3 true true none = .ok rs ∧
      ∀ r ∈ rs, Intel.isData r = true →
        r.data ≠ [] ∧ r.address >>> 16 = (r.address + r.data.length - 1) >>> 16) :=
  ⟨by decide, by decide, by decide,
    intel_split_data_single_page [7, 8] 65535 3 true true none (by decide)
      (by decide) (by decide)⟩

/-! ## Claim C6 -/

theorem Mos.split_column_overflow_mos (d : List Nat) (a columns : Nat)
    (h1 : a < 65536) (h2 : a + d.length ≤ 65536)
    (hc : ¬ (0 < columns ∧ columns < 256)) :
    Mos.split d a columns true true = .error "column overflow" := by
  unfold Mos.split
  rw [if_neg (by omega), if_neg (by omega), if_pos hc]

theorem Intel.split_column_overflow_intel (d : List Nat) (a columns : Nat)
    (h1 : a < 4294967296) (h2 : a + d.length ≤ 4294967296)
    (hc : ¬ (0 < columns ∧ columns < 255)) :
    Intel.split d a columns true true none = .error "column overflow" := by
  unfold Intel.split
  rw [if_neg (by omega), if_neg (by omega), if_pos hc]

theorem Mot.split_column_overflow_mot (d : List Nat) (a columns : Nat)
    (h1 : a < 4294967296) (h2 : a + d.length ≤ 4294967296)
    (hc : ¬ (0 < columns ∧ columns < 128)) :
    Mot.split d a columns true true none none [] = .error "column overflow" := by
  unfold Mot.split
  rw [if_neg (by omega), if_neg (by omega), if_pos hc]

theorem Mos.splitLoop_data_le_mos (w : Nat) :
    ∀ cs a, (∀ c ∈ cs, c.length ≤ w) →
      ∀ r ∈ Mos.splitLoop a cs, r.data.length ≤ w := by
  intro cs
  induction cs with
  | nil => intro a _ r hr; cases hr
  | cons c cs ih =>
    intro a h r hr
    rw [Mos.splitLoop] at hr
    rcases List.mem_cons.mp hr with rfl | hr1
    · exact h c (by simp)
    · exact ih _ (fun c' hc' => h c' (by simp [hc'])) r hr1

theorem Mot.splitLoop_data_le_mot (tag w : Nat) :
    ∀ cs a, (∀ c ∈ cs, c.length ≤ w) →
      ∀ r ∈ Mot.splitLoop tag a cs, r.data.length ≤ w := by
  intro cs
  induction cs with
  | nil => intro a _ r hr; cases hr
  | cons c cs ih =>
    intro a h r hr
    rw [Mot.splitLoop] at hr
    rcases List.mem_cons.mp hr with rfl | hr1
    · exact h c (by simp)
    · exact ih _ (fun c' hc' => h c' (by simp [hc'])) r hr1

theorem Intel.splitLoop_data_le_intel (w : Nat) :
    ∀ cs a aOld, (∀ c ∈ cs, c.length ≤ w) →
      ∀ r ∈ Intel.splitLoop a aOld cs, Intel.isData r = true →
        r.data.length ≤ w := by
  intro cs
  induction cs with
  | nil => intro a aOld _ r hr; cases hr
  | cons c cs ih =>
    intro a aOld h r hr hdata
    have hc : c.length ≤ w := h c (by simp)
    have htail : ∀ c' ∈ cs, c'.length ≤ w := fun c' hc' => h c' (by simp [hc'])
    rw [Intel.splitLoop_cons] at hr
    by_cases hbr : (a + c.length) &&& 0xFFFF ≠ 0 ∧
        (a ^^^ (a + c.length)) &&& 0xFFFF0000 ≠ 0
    · rw [if_pos hbr] at hr
      rcases List.mem_cons.mp hr with rfl | hr1
      · rw [Intel.buildData_data, List.length_take]
        omega
      rcases List.mem_cons.mp hr1 with rfl | hr2
      · rw [Intel.isData_buildELA] at hdata
        cases hdata
      rcases List.mem_cons.mp hr2 with rfl | hr3
      · rw [Intel.buildData_data, List.length_drop]
        omega
      · exact ih _ _ htail r hr3 hdata
    · rw [if_neg hbr] at hr
      rw [List.mem_append] at hr
      rcases hr with hela | hr1
      · split_ifs at hela
        · have := List.mem_singleton.mp hela
          subst this
          rw [Intel.isData_buildELA] at hdata
          cases hdata
        · cases hela
      rcases List.mem_cons.mp hr1 with rfl | hr2
      · rw [Intel.buildData_data]
        exact hc
      · exact ih _ _ htail r hr2 hdata

theorem Mot.isData_of_buildCount {n : Nat} {cr : Rec}
    (h : Mot.buildCount n = .ok cr) : Mot.isData cr = false := by
  unfold Mot.buildCount Mot.fitCountTag at h
  split_ifs at h
  · rw [exceptBind_ok] at h
    cases h
    rfl
  · rw [exceptBind_ok] at h
    cases h
    rfl
  · rw [exceptBind_error] at h
    cases h

/-- C6 counterexample: Intel `split` rejects `columns = 255` (the claimed
inclusive Intel bound) with a column-overflow error, while MOS `split`
accepts `columns = 200`, above the claimed MOS bound of 128. -/
theorem split_columns_counterexample :
    Intel.split [0] 0 255 true true none = .error "column overflow" ∧
    (∃ rs, Mos.split [0] 0 200 true true = .ok rs) := by
  refine ⟨by decide, ⟨_, Mos.split_eval_mos [0] 0 200 (by decide) (by decide) (by decide)⟩⟩

/-- C6 (amended): the column bounds checked at split entry are exclusive
and differ from the claim: Intel accepts `1 ≤ columns ≤ 254`, Motorola
`1 ≤ columns ≤ 127`, and MOS `1 ≤ columns ≤ 255`; out-of-range values raise
a column-overflow error at entry, and every emitted data record carries at
most `columns` bytes.  (Motorola can additionally fail later with a
count-overflow error on gigantic buffers, see C2.) -/
theorem split_column_bounds (d : List Nat) (a columns : Nat) :
    (a < 65536 → a + d.length ≤ 65536 →
      ((∃ rs, Mos.split d a columns true true = .ok rs) ↔
        0 < columns ∧ columns < 256) ∧
      (¬ (0 < columns ∧ columns < 256) →
        Mos.split d a columns true true = .error "column overflow") ∧
      (∀ rs, Mos.split d a columns true true = .ok rs →
        ∀ r ∈ rs, Mos.isData r = true → r.data.length ≤ columns)) ∧
    (a < 4294967296 → a + d.length ≤ 4294967296 →
      ((∃ rs, Intel.split d a columns true true none = .ok rs) ↔
        0 < columns ∧ columns < 255) ∧
      (¬ (0 < columns ∧ columns < 255) →
        Intel.split d a columns true true none = .error "column overflow") ∧
      (∀ rs, Intel.split d a columns true true none = .ok rs →
        ∀ r ∈ rs, Intel.isData r = true → r.data.length ≤ columns)) ∧
    (a < 4294967296 → a + d.length ≤ 4294967296 →
      (¬ (0 < columns ∧ columns < 128) →
        Mot.split d a columns true true none none [] = .error "column overflow") ∧
      ((0 < columns ∧ columns < 128) →
        (chop d columns (a % columns)).length < 16777216 →
        ∃ rs, Mot.split d a columns true true none none [] = .ok rs) ∧
      (∀ rs, Mot.split d a columns true true none none [] = .ok rs →
        ∀ r ∈ rs, Mot.isData r = true → r.data.length ≤ columns)) := by
  refine ⟨?_, ?_, ?_⟩
  · intro h1 h2
    refine ⟨⟨?_, fun hc => ⟨_, Mos.split_eval_mos d a columns (by omega) h2 hc⟩⟩,
      Mos.split_column_overflow_mos d a columns (by omega) h2, ?_⟩
    · rintro ⟨rs, hrs⟩
      by_contra hc
      rw [Mos.split_column_overflow_mos d a columns (by omega) h2 hc] at hrs
      cases hrs
    · intro rs hrs r hr _
      by_cases hc : 0 < columns ∧ columns < 256
      · rw [Mos.split_eval_mos d a columns (by omega) h2 hc] at hrs
        cases hrs
        rw [List.mem_append] at hr
        rcases hr with hloop | hterm
        · exact Mos.splitLoop_data_le_mos columns _ a
            (fun c hc' => (chop_mem d columns _ hc.1 c hc').2) r hloop
        · have := List.mem_singleton.mp hterm
          subst this
          simp [Mos.buildTerminator, Mos.make, Rec.make]
      · rw [Mos.split_column_overflow_mos d a columns (by omega) h2 hc] at hrs
        cases hrs
  · intro h1 h2
    refine ⟨⟨?_, fun hc => ⟨_, Intel.split_eval_intel d a columns (by omega) h2 hc⟩⟩,
      Intel.split_column_overflow_intel d a columns (by omega) h2, ?_⟩
    · rintro ⟨rs, hrs⟩
      by_contra hc
      rw [Intel.split_column_overflow_intel d a columns (by omega) h2 hc] at hrs
      cases hrs
    · intro rs hrs r hr hdata
      by_cases hc : 0 < columns ∧ columns < 255
      · rw [Intel.split_eval_intel d a columns (by omega) h2 hc] at hrs
        cases hrs
        rw [List.mem_append] at hr
        rcases hr with hloop | hterm
        · exact Intel.splitLoop_data_le_intel columns _ a 0
            (fun c hc' => (chop_mem d columns _ hc.1 c hc').2) r hloop hdata
        · rw [Intel.isData_terminate a r hterm] at hdata
          cases hdata
      · rw [Intel.split_column_overflow_intel d a columns (by omega) h2 hc] at hrs
        cases hrs
  · intro h1 h2
    refine ⟨Mot.split_column_overflow_mot d a columns (by omega) h2, ?_, ?_⟩
    · intro hc hcnt
      obtain ⟨t, ht, _⟩ := Mot.fitDataTag_ok (a + d.length) h2
      obtain ⟨cr, hcr, _⟩ := Mot.buildCount_ok _ hcnt
      exact ⟨_, by
        rw [Mot.split_eval_mot d a columns (by omega) h2 hc, ht, exceptBind_ok,
          hcr, exceptBind_ok]⟩
    · intro rs hrs r hr hdata
      by_cases hc : 0 < columns ∧ columns < 128
      · rw [Mot.split_eval_mot d a columns (by omega) h2 hc] at hrs
        obtain ⟨t, ht, _⟩ := Mot.fitDataTag_ok (a + d.length) h2
        rw [ht, exceptBind_ok] at hrs
        cases hbc : Mot.buildCount (chop d columns (a % columns)).length with
        | error e =>
          rw [hbc, exceptBind_error] at hrs
          cases hrs
        | ok cr =>
          rw [hbc, exceptBind_ok] at hrs
          cases hrs
          rw [List.mem_append] at hr
          rcases hr with hr1 | hterm
          · rw [List.mem_append] at hr1
            rcases hr1 with hhdr | hloop
            · have := List.mem_singleton.mp hhdr
              subst this
              rw [Mot.isData_buildHeader] at hdata
              cases hdata
            · exact Mot.splitLoop_data_le_mot t columns _ a
                (fun c hc' => (chop_mem d columns _ hc.1 c hc').2) r hloop
          · rcases List.mem_cons.mp hterm with rfl | hterm1
            · rw [Mot.isData_of_buildCount hbc] at hdata
              cases hdata
            · have := List.mem_singleton.mp hterm1
              subst this
              rw [Mot.isData_buildTerminator] at hdata
              cases hdata
      · rw [Mot.split_column_overflow_mot d a columns (by omega) h2 hc] at hrs
        cases hrs

/-- Witness for C6 at `d = [1, 2]`, `a = 0`, sampling each format's bound. -/
theorem split_column_bounds_witness :
    ((0 : Nat) + ([1, 2] : List Nat).length ≤ 65536) ∧
    ((∃ rs, Mos.split [1, 2] 0 255 true true = .ok rs) ↔
      ((0 : Nat) < 255 ∧ (255 : Nat) < 256)) ∧
    (¬ ((0 : Nat) < 255 ∧ (255 : Nat) < 255) →
      Intel.split [1, 2] 0 255 true true none = .error "column overflow") ∧
    (¬ ((0 : Nat) < 128 ∧ (128 : Nat) < 128) →
      Mot.split [1, 2] 0 128 true true none none [] = .error "column overflow") := by
  refine ⟨by decide, ?_, ?_, ?_⟩
  · exact ((split_column_bounds [1, 2] 0 255).1 (by decide) (by decide)).1
  · exact ((split_column_bounds [1, 2] 0 255).2.1 (by decide) (by decide)).2.1
  · exact ((split_column_bounds [1, 2] 0 128).2.2 (by decide) (by decide)).1

/-! ## Claim C8 -/

/-- C8 counterexample: `check_sequence` accepts a sequence containing two
terminator records (`count = 0` records at positions 0 and 2), because it
only inspects the address/checksum fields of the very last record; the claim
requires acceptance only of sequences ending in exactly one terminator. -/
theorem mos_check_sequence_counterexample :
    Mos.checkSequence
        [Mos.buildTerminator 0, Mos.buildData 0 [5], Mos.buildTerminator 2] =
      .ok () ∧
    (Mos.buildTerminator 0).count = 0 ∧ (Mos.buildTerminator 2).count = 0 := by
  refine ⟨by decide, by decide, by decide⟩

/-- C8 (amended): MOS `check_sequence` accepts exactly the sequences that
pass the generic per-record and data-ordering checks, are non-empty, and
whose LAST record has its `address` and `checksum` fields equal to the
number of preceding records.  It does not verify that the last record is a
terminator (`count = 0`), nor that terminators are unique or absent
elsewhere. -/
theorem mos_check_sequence_iff (records : List Rec) :
    Mos.checkSequence records = .ok () ↔
      (baseCheckSeq Mos.check Mos.isData records = .ok () ∧
       records ≠ [] ∧
       ∃ last, records.getLast? = some last ∧
         last.address = records.length - 1 ∧
         last.checksum = some (records.length - 1)) := by
  unfold Mos.checkSequence
  cases hbase : baseCheckSeq Mos.check Mos.isData records with
  | error e =>
    rw [exceptBind_error]
    constructor
    · intro h; cases h
    · rintro ⟨h1, _, _⟩
      cases h1
  | ok u =>
    cases u
    rw [exceptBind_ok]
    cases hrec : records with
    | nil =>
      rw [if_pos (by simp)]
      constructor
      · intro h; cases h
      · rintro ⟨_, hne, _⟩
        exact absurd rfl hne
    | cons r0 rest =>
      rw [if_neg (by simp)]
      dsimp only
      cases hlast : (r0 :: rest).getLast? with
      | none =>
        rw [List.getLast?_eq_none_iff] at hlast
        cases hlast
      | some l =>
        dsimp only
        by_cases hcond : l.address ≠ (r0 :: rest).length - 1 ∨
            l.checksum ≠ some ((r0 :: rest).length - 1)
        · rw [if_pos hcond]
          constructor
          · intro h; cases h
          · rintro ⟨_, _, l', hl', ha, hc⟩
            cases hl'
            rcases hcond with h | h
            · exact absurd ha h
            · exact absurd hc h
        · rw [if_neg hcond]
          push_neg at hcond
          constructor
          · intro _
            exact ⟨rfl, by simp, l, rfl, hcond.1, hcond.2⟩
          · intro _
            rfl

theorem hexDigitVal_toHexDigit : ∀ m, m < 16 → hexDigitVal (toHexDigit m) = some m := by
  decide

theorem toHexFixed_length : ∀ k n, (toHexFixed k n).length = k := by
  intro k
  induction k with
  | zero => intro n; rfl
  | succ k ih =>
    intro n
    rw [toHexFixed, List.length_append, ih]
    simp

theorem parseHexGo_append (xs ys : List Char) :
    ∀ acc, parseHexGo acc (xs ++ ys) =
      match parseHexGo acc xs with
      | none => none
      | some a => parseHexGo a ys := by
  induction xs with
  | nil => intro acc; rfl
  | cons c cs ih =>
    intro acc
    rw [List.cons_append]
    simp only [parseHexGo]
    cases hexDigitVal c with
    | none => rfl
    | some v => exact ih _

theorem parseHexGo_toHexFixed : ∀ k n acc, n < 16 ^ k →
    parseHexGo acc (toHexFixed k n) = some (acc * 16 ^ k + n) := by
  intro k
  induction k with
  | zero =>
    intro n acc hn
    have : n = 0 := by omega
    subst this
    simp [toHexFixed, parseHexGo]
  | succ k ih =>
    intro n acc hn
    rw [toHexFixed, parseHexGo_append, ih (n / 16) acc (by
      have h16 : (16 : Nat) ^ (k + 1) = 16 ^ k * 16 := pow_succ 16 k
      omega)]
    simp only [parseHexGo]
    rw [hexDigitVal_toHexDigit (n % 16) (by omega)]
    simp only [parseHexGo]
    congr 1
    have hmod := Nat.div_add_mod n 16
    calc (acc * 16 ^ k + n / 16) * 16 + n % 16
        = acc * (16 ^ k * 16) + (16 * (n / 16) + n % 16) := by ring
      _ = acc * 16 ^ (k + 1) + n := by rw [hmod, pow_succ]

theorem parseHex_toHexFixed (k n : Nat) (hn : n < 16 ^ k) :
    parseHex (toHexFixed k n) = some n := by
  rw [parseHex, parseHexGo_toHexFixed k n 0 hn]
  simp

theorem toHexFixed_two (b : Nat) :
    toHexFixed 2 b = [toHexDigit (b / 16 % 16), toHexDigit (b % 16)] := rfl

theorem hexlify_length : ∀ bs : List Nat, (hexlify bs).length = 2 * bs.length := by
  intro bs
  induction bs with
  | nil => rfl
  | cons b bs ih =>
    rw [hexlify, List.map_cons, List.flatten_cons, List.length_append]
    rw [hexlify] at ih
    rw [ih, toHexFixed_length]
    simp
    omega

theorem unhexlify_hexlify : ∀ bs : List Nat, (∀ b ∈ bs, b < 256) →
    unhexlify (hexlify bs) = some bs := by
  intro bs
  induction bs with
  | nil => intro _; rfl
  | cons b bs ih =>
    intro h
    have hb : b < 256 := h b (by simp)
    rw [hexlify, List.map_cons, List.flatten_cons, toHexFixed_two, List.cons_append,
      List.cons_append, List.nil_append, unhexlify]
    rw [show toHexDigit (b / 16 % 16) :: toHexDigit (b % 16) :: [] = toHexFixed 2 b from rfl]
    rw [parseHex_toHexFixed 2 b (by omega)]
    rw [show (List.map (fun b => toHexFixed 2 b) bs).flatten = hexlify bs from rfl]
    rw [ih (fun b' hb' => h b' (by simp [hb']))]

theorem dropWhile_eq_self_of_all {p : Char → Bool} :
    ∀ cs : List Char, (∀ c ∈ cs, p c = false) → cs.dropWhile p = cs := by
  intro cs h
  cases cs with
  | nil => rfl
  | cons c cs' =>
    rw [List.dropWhile_cons, if_neg (by rw [h c (by simp)]; exact Bool.false_ne_true)]

theorem pyStrip_eq_self (cs : List Char) (h : ∀ c ∈ cs, isPySpace c = false) :
    pyStrip cs = cs := by
  rw [pyStrip, dropWhile_eq_self_of_all cs h,
    dropWhile_eq_self_of_all cs.reverse (fun c hc => h c (List.mem_reverse.mp hc)),
    List.reverse_reverse]

theorem toHexDigit_not_space : ∀ m, m < 16 → isPySpace (toHexDigit m) = false := by
  decide

theorem toHexFixed_not_space : ∀ k n, ∀ c ∈ toHexFixed k n, isPySpace c = false := by
  intro k
  induction k with
  | zero => intro n c hc; cases hc
  | succ k ih =>
    intro n c hc
    rw [toHexFixed] at hc
    rw [List.mem_append] at hc
    rcases hc with h | h
    · exact ih _ c h
    · have := List.mem_singleton.mp h
      subst this
      exact toHexDigit_not_space _ (by omega)

theorem hexlify_not_space : ∀ bs : List Nat, ∀ c ∈ hexlify bs, isPySpace c = false := by
  intro bs
  induction bs with
  | nil => intro c hc; cases hc
  | cons b bs ih =>
    intro c hc
    rw [hexlify, List.map_cons, List.flatten_cons, List.mem_append] at hc
    rcases hc with h | h
    · exact toHexFixed_not_space 2 b c h
    · exact ih c h

/-! ## Lemmas towards the parse/marshal round-trip -/

theorem mask_lo8 (x : Nat) : x &&& 0xFF = x % 256 := by
  have h : (0xFF : Nat) = 2 ^ 8 - 1 := by norm_num
  have h' : (256 : Nat) = 2 ^ 8 := by norm_num
  rw [h, h', Nat.and_pow_two_sub_one_eq_mod]

theorem toHexDigit_toNat : ∀ m, m < 10 → (toHexDigit m).toNat = 48 + m := by
  decide

theorem toHexFixed_high_zeros :
    ∀ k j n, n < 16 ^ k → toHexFixed (j + k) n = toHexFixed j 0 ++ toHexFixed k n := by
  intro k
  induction k with
  | zero =>
    intro j n hn
    simp only [pow_zero] at hn
    have hn0 : n = 0 := by omega
    subst hn0
    simp [toHexFixed]
  | succ k ih =>
    intro j n hn
    show toHexFixed ((j + k) + 1) n = _
    simp only [toHexFixed]
    rw [ih j (n / 16) (by
      rw [Nat.div_lt_iff_lt_mul (by norm_num), ← pow_succ]
      exact hn), List.append_assoc]

theorem Intel.computeChecksum_lt_intel (r : Rec) : Intel.computeChecksum r < 256 := by
  simp only [Intel.computeChecksum, mask_lo8]
  omega

theorem Mot.computeChecksum_lt_mot (r : Rec) : Mot.computeChecksum r < 256 := by
  have h2 : (256 : Nat) = 2 ^ 8 := by norm_num
  simp only [Mot.computeChecksum, mask_lo8]
  rw [h2]
  exact Nat.xor_lt_two_pow (by rw [← h2]; omega) (by norm_num)

theorem Mos.computeChecksum_lt_mos (r : Rec) (ha : r.address < 65536) :
    Mos.computeChecksum r < 65536 := by
  rw [Mos.computeChecksum]
  by_cases h : r.count ≠ 0
  · rw [if_pos h, mask_lo16]
    omega
  · rw [if_neg h]
    exact ha

theorem baseCheck_ok_inv (cc : Rec → Nat) (r : Rec) (h : baseCheck cc r = .ok ()) :
    r.tag.getD 0 ≤ 255 ∧ r.count ≤ 255 ∧
      ∀ c, r.checksum = some c → c ≤ 255 ∧ c = cc r := by
  rw [baseCheck] at h
  by_cases h1 : r.tag.getD 0 ≤ 255
  · rw [if_neg (not_not_intro h1)] at h
    simp only [pure_bind] at h
    by_cases h2 : r.count ≤ 255
    · rw [if_neg (not_not_intro h2)] at h
      refine ⟨h1, h2, ?_⟩
      intro c hc
      rw [hc] at h
      simp only [] at h
      by_cases h3 : c ≤ 255
      · rw [if_neg (not_not_intro h3)] at h
        by_cases h4 : c = cc r
        · exact ⟨h3, h4⟩
        · rw [if_pos h4] at h
          cases h
      · rw [if_pos h3] at h
        cases h
    · rw [if_pos h2] at h
      cases h
  · rw [if_pos h1] at h
    cases h

theorem Mos.check_ok_inv_mos (r : Rec) (h : Mos.check r = .ok ()) :
    r.address < 65536 ∧ r.tag = none ∧ r.count < 256 ∧ r.count = r.data.length ∧
      ∀ c, r.checksum = some c → c < 65536 ∧ c = Mos.computeChecksum r := by
  rw [Mos.check] at h
  by_cases h1 : r.address < 65536
  · rw [if_neg (not_not_intro h1)] at h
    simp only [pure_bind] at h
    by_cases h2 : r.tag = none
    · rw [if_neg (not_not_intro h2)] at h
      by_cases h3 : r.count < 256
      · rw [if_neg (not_not_intro h3)] at h
        by_cases h4 : r.count = r.data.length
        · rw [if_neg (not_not_intro h4)] at h
          refine ⟨h1, h2, h3, h4, ?_⟩
          intro c hc
          rw [hc] at h
          simp only [] at h
          by_cases h5 : c < 65536
          · rw [if_neg (not_not_intro h5)] at h
            by_cases h6 : c = Mos.computeChecksum r
            · exact ⟨h5, h6⟩
            · rw [if_pos h6] at h
              cases h
          · rw [if_pos h5] at h
            cases h
        · rw [if_pos h4] at h
          cases h
      · rw [if_pos h3] at h
        cases h
    · rw [if_pos h2] at h
      cases h
  · rw [if_pos h1] at h
    cases h

theorem Intel.check_ok_inv_intel (r : Rec) (h : Intel.check r = .ok ()) :
    baseCheck Intel.computeChecksum r = .ok () ∧ r.count = r.data.length ∧
      ∃ t, r.tag = some t ∧ t ≤ 5 := by
  rw [Intel.check] at h
  cases hb : baseCheck Intel.computeChecksum r with
  | error e =>
    rw [hb] at h
    cases h
  | ok u =>
    cases u
    rw [show baseCheck Intel.computeChecksum r = (pure () : Except String Unit) from hb] at h
    simp only [pure_bind] at h
    by_cases h2 : r.count = Intel.computeCount r
    · rw [if_neg (not_not_intro h2)] at h
      by_cases h3 : r.tag.getD 6 ≤ 5
      · cases htag : r.tag with
        | none =>
          rw [htag] at h3
          simp at h3
        | some t =>
          refine ⟨rfl, h2, t, rfl, ?_⟩
          rw [htag] at h3
          simpa using h3
      · rw [if_pos h3] at h
        cases h
    · rw [if_pos h2] at h
      cases h

theorem Mot.check_ok_inv_mot (r : Rec) (h : Mot.check r = .ok ()) :
    baseCheck Mot.computeChecksum r = .ok () ∧
      (∃ t, r.tag = some t ∧ t ≤ 9) ∧
      ((r.tag.getD 10 = 0 ∨ r.tag.getD 10 = 4 ∨ r.tag.getD 10 = 5 ∨ r.tag.getD 10 = 6) →
        r.address = 0) ∧
      r.count = Mot.computeCount r := by
  rw [Mot.check] at h
  cases hb : baseCheck Mot.computeChecksum r with
  | error e =>
    rw [hb] at h
    cases h
  | ok u =>
    cases u
    rw [show baseCheck Mot.computeChecksum r = (pure () : Except String Unit) from hb] at h
    simp only [pure_bind] at h
    by_cases h2 : r.tag.getD 10 ≤ 9
    · rw [if_neg (not_not_intro h2)] at h
      by_cases h3 : (r.tag.getD 10 = 0 ∨ r.tag.getD 10 = 4 ∨ r.tag.getD 10 = 5 ∨
          r.tag.getD 10 = 6) ∧ r.address ≠ 0
      · rw [if_pos h3] at h
        cases h
      · rw [if_neg h3] at h
        by_cases h4 : r.count = Mot.computeCount r
        · refine ⟨rfl, ?_, ?_, h4⟩
          · cases htag : r.tag with
            | none =>
              rw [htag] at h2
              simp at h2
            | some t =>
              refine ⟨t, rfl, ?_⟩
              rw [htag] at h2
              simpa using h2
          · intro hd
            by_contra hne
            exact h3 ⟨hd, hne⟩
        · rw [if_pos h4] at h
          cases h
    · rw [if_pos h2] at h
      cases h

/-- Parsing back a well-formed MOS record line yields the record built from
the rendered fields. -/
theorem Mos.parse_marshal_aux_mos (cnt addr : Nat) (dat : List Nat) (ck : Nat)
    (hcnt : cnt < 256) (haddr : addr < 65536) (hck : ck < 65536)
    (hcl : cnt = dat.length) (hbytes : ∀ b ∈ dat, b < 256) :
    Mos.parse (';' :: (toHexFixed 2 cnt ++ (toHexFixed 4 addr ++ (hexlify dat ++
      toHexFixed 4 ck)))) = .ok (Mos.make addr dat (.given ck)) := by
  have h16_2 : (16 : Nat) ^ 2 = 256 := by norm_num
  have h16_4 : (16 : Nat) ^ 4 = 65536 := by norm_num
  set rest := toHexFixed 2 cnt ++ (toHexFixed 4 addr ++ (hexlify dat ++ toHexFixed 4 ck))
    with hrest
  have hns : ∀ c ∈ ';' :: rest, isPySpace c = false := by
    intro c hc
    rw [hrest] at hc
    rcases List.mem_cons.mp hc with h | h
    · subst h; decide
    · rcases List.mem_append.mp h with h | h
      · exact toHexFixed_not_space 2 cnt c h
      · rcases List.mem_append.mp h with h | h
        · exact toHexFixed_not_space 4 addr c h
        · rcases List.mem_append.mp h with h | h
          · exact hexlify_not_space dat c h
          · exact toHexFixed_not_space 4 ck c h
  have hlen : rest.length = 10 + 2 * dat.length := by
    rw [hrest]
    simp only [List.length_append, toHexFixed_length, hexlify_length]
    omega
  have e1 : rest.take 2 = toHexFixed 2 cnt := by
    rw [hrest]; exact List.take_left' (toHexFixed_length 2 cnt)
  have ed2 : rest.drop 2 = toHexFixed 4 addr ++ (hexlify dat ++ toHexFixed 4 ck) := by
    rw [hrest]; exact List.drop_left' (toHexFixed_length 2 cnt)
  have e2 : (rest.drop 2).take 4 = toHexFixed 4 addr := by
    rw [ed2]; exact List.take_left' (toHexFixed_length 4 addr)
  have ed6 : rest.drop 6 = hexlify dat ++ toHexFixed 4 ck := by
    rw [show (6 : Nat) = 2 + 4 from rfl, ← List.drop_drop, ed2]
    exact List.drop_left' (toHexFixed_length 4 addr)
  have e3 : (rest.drop 6).take (rest.length - 10) = hexlify dat := by
    rw [ed6, show rest.length - 10 = 2 * dat.length from by omega]
    exact List.take_left' (hexlify_length dat)
  have e4 : rest.drop (rest.length - 4) = toHexFixed 4 ck := by
    have hr2 : rest = (toHexFixed 2 cnt ++ (toHexFixed 4 addr ++ hexlify dat)) ++
        toHexFixed 4 ck := by
      rw [hrest]; simp [List.append_assoc]
    rw [show rest.length - 4 = 6 + 2 * dat.length from by omega, hr2]
    apply List.drop_left'
    simp only [List.length_append, toHexFixed_length, hexlify_length]
    omega
  rw [Mos.parse, pyStrip_eq_self _ hns]
  simp only []
  rw [if_pos ⟨trivial, by omega, by omega, by omega⟩]
  rw [e1, e2, e3, e4, parseHex_toHexFixed 2 cnt (by rw [h16_2]; exact hcnt),
    parseHex_toHexFixed 4 addr (by rw [h16_4]; exact haddr),
    parseHex_toHexFixed 4 ck (by rw [h16_4]; exact hck),
    unhexlify_hexlify dat hbytes]
  simp only []
  rw [if_neg (not_not_intro hcl)]

/-- Parsing back a well-formed Intel HEX record line yields the record built
from the rendered fields. -/
theorem Intel.parse_marshal_aux_intel (offset tag : Nat) (dat : List Nat) (ck : Nat)
    (hoff : offset < 65536) (htag : tag ≤ 5) (hck : ck < 256)
    (hdl : dat.length ≤ 255) (hbytes : ∀ b ∈ dat, b < 256) :
    Intel.parse (':' :: (toHexFixed 2 dat.length ++ (toHexFixed 4 offset ++
      (toHexFixed 2 tag ++ (hexlify dat ++ toHexFixed 2 ck))))) =
      .ok (Intel.make offset tag dat (.given ck)) := by
  have h16_2 : (16 : Nat) ^ 2 = 256 := by norm_num
  have h16_4 : (16 : Nat) ^ 4 = 65536 := by norm_num
  set rest := toHexFixed 2 dat.length ++ (toHexFixed 4 offset ++
    (toHexFixed 2 tag ++ (hexlify dat ++ toHexFixed 2 ck))) with hrest
  have hns : ∀ c ∈ ':' :: rest, isPySpace c = false := by
    intro c hc
    rw [hrest] at hc
    rcases List.mem_cons.mp hc with h | h
    · subst h; decide
    · rcases List.mem_append.mp h with h | h
      · exact toHexFixed_not_space 2 dat.length c h
      · rcases List.mem_append.mp h with h | h
        · exact toHexFixed_not_space 4 offset c h
        · rcases List.mem_append.mp h with h | h
          · exact toHexFixed_not_space 2 tag c h
          · rcases List.mem_append.mp h with h | h
            · exact hexlify_not_space dat c h
            · exact toHexFixed_not_space 2 ck c h
  have hlen : rest.length = 10 + 2 * dat.length := by
    rw [hrest]
    simp only [List.length_append, toHexFixed_length, hexlify_length]
    omega
  have e1 : rest.take 2 = toHexFixed 2 dat.length := by
    rw [hrest]; exact List.take_left' (toHexFixed_length 2 dat.length)
  have ed2 : rest.drop 2 = toHexFixed 4 offset ++
      (toHexFixed 2 tag ++ (hexlify dat ++ toHexFixed 2 ck)) := by
    rw [hrest]; exact List.drop_left' (toHexFixed_length 2 dat.length)
  have e2 : (rest.drop 2).take 4 = toHexFixed 4 offset := by
    rw [ed2]; exact List.take_left' (toHexFixed_length 4 offset)
  have ed6 : rest.drop 6 = toHexFixed 2 tag ++ (hexlify dat ++ toHexFixed 2 ck) := by
    rw [show (6 : Nat) = 2 + 4 from rfl, ← List.drop_drop, ed2]
    exact List.drop_left' (toHexFixed_length 4 offset)
  have e3 : (rest.drop 6).take 2 = toHexFixed 2 tag := by
    rw [ed6]; exact List.take_left' (toHexFixed_length 2 tag)
  have ed8 : rest.drop 8 = hexlify dat ++ toHexFixed 2 ck := by
    rw [show (8 : Nat) = 6 + 2 from rfl, ← List.drop_drop, ed6]
    exact List.drop_left' (toHexFixed_length 2 tag)
  have e4 : (rest.drop 8).take (rest.length - 10) = hexlify dat := by
    rw [ed8, show rest.length - 10 = 2 * dat.length from by omega]
    exact List.take_left' (hexlify_length dat)
  have e5 : rest.drop (rest.length - 2) = toHexFixed 2 ck := by
    have hr2 : rest = (toHexFixed 2 dat.length ++ (toHexFixed 4 offset ++
        (toHexFixed 2 tag ++ hexlify dat))) ++ toHexFixed 2 ck := by
      rw [hrest]; simp [List.append_assoc]
    rw [show rest.length - 2 = 8 + 2 * dat.length from by omega, hr2]
    apply List.drop_left'
    simp only [List.length_append, toHexFixed_length, hexlify_length]
    omega
  rw [Intel.parse, pyStrip_eq_self _ hns]
  simp only []
  rw [if_pos ⟨trivial, by omega, by omega, by omega⟩]
  rw [e1, e2, e3, e4, e5, parseHex_toHexFixed 2 dat.length (by rw [h16_2]; omega),
    parseHex_toHexFixed 4 offset (by rw [h16_4]; exact hoff),
    parseHex_toHexFixed 2 tag (by rw [h16_2]; omega),
    parseHex_toHexFixed 2 ck (by rw [h16_2]; exact hck),
    unhexlify_hexlify dat hbytes]
  simp only []
  rw [if_neg (not_not_intro htag), if_neg (not_not_intro rfl)]
  rw [Intel.init, if_neg (by omega), if_neg (by omega), if_neg (not_not_intro htag)]

/-- Parsing back a well-formed Motorola record line (a tag with an address
field) yields the record built from the rendered fields. -/
theorem Mot.parse_marshal_aux_mot (t alen addr : Nat) (dat : List Nat) (ck : Nat)
    (htal : tagToAddressLength t = some alen) (ht : t ≤ 9)
    (haddr : addr < 16 ^ (2 * alen)) (hcnt : alen + dat.length + 1 ≤ 139)
    (hck : ck < 256) (hbytes : ∀ b ∈ dat, b < 256) :
    Mot.parse ('S' :: toHexDigit t :: (toHexFixed 2 (alen + dat.length + 1) ++
      ((toHexFixed 8 addr).drop (2 * (4 - alen)) ++ (hexlify dat ++
      toHexFixed 2 ck)))) = .ok (Mot.make addr t dat (.given ck)) := by
  have h16_2 : (16 : Nat) ^ 2 = 256 := by norm_num
  have halen : 2 ≤ alen ∧ alen ≤ 4 := by
    interval_cases t <;> simp [tagToAddressLength] at htal <;> omega
  have htd : (toHexDigit t).toNat = 48 + t := toHexDigit_toNat t (by omega)
  have h8 : (8 - 2 * alen) + 2 * alen = 8 := by omega
  have hsp : toHexFixed 8 addr =
      toHexFixed (8 - 2 * alen) 0 ++ toHexFixed (2 * alen) addr := by
    conv_lhs => rw [← h8]
    exact toHexFixed_high_zeros (2 * alen) (8 - 2 * alen) addr haddr
  have hdropA : (toHexFixed 8 addr).drop (2 * (4 - alen)) = toHexFixed (2 * alen) addr := by
    rw [hsp]
    apply List.drop_left'
    rw [toHexFixed_length]
    omega
  rw [hdropA]
  set rest := toHexFixed 2 (alen + dat.length + 1) ++ (toHexFixed (2 * alen) addr ++
    (hexlify dat ++ toHexFixed 2 ck)) with hrest
  have hns : ∀ c ∈ 'S' :: toHexDigit t :: rest, isPySpace c = false := by
    intro c hc
    rw [hrest] at hc
    rcases List.mem_cons.mp hc with h | h
    · subst h; decide
    · rcases List.mem_cons.mp h with h | h
      · subst h; exact toHexDigit_not_space t (by omega)
      · rcases List.mem_append.mp h with h | h
        · exact toHexFixed_not_space 2 (alen + dat.length + 1) c h
        · rcases List.mem_append.mp h with h | h
          · exact toHexFixed_not_space (2 * alen) addr c h
          · rcases List.mem_append.mp h with h | h
            · exact hexlify_not_space dat c h
            · exact toHexFixed_not_space 2 ck c h
  have hlen : rest.length = 4 + 2 * alen + 2 * dat.length := by
    rw [hrest]
    simp only [List.length_append, toHexFixed_length, hexlify_length]
    omega
  have e1 : rest.take 2 = toHexFixed 2 (alen + dat.length + 1) := by
    rw [hrest]; exact List.take_left' (toHexFixed_length 2 _)
  have ed2 : rest.drop 2 = toHexFixed (2 * alen) addr ++
      (hexlify dat ++ toHexFixed 2 ck) := by
    rw [hrest]; exact List.drop_left' (toHexFixed_length 2 _)
  have e2 : (rest.drop 2).take (2 * alen) = toHexFixed (2 * alen) addr := by
    rw [ed2]; exact List.take_left' (toHexFixed_length (2 * alen) addr)
  have ed2a : (rest.drop 2).drop (2 * alen) = hexlify dat ++ toHexFixed 2 ck := by
    rw [ed2]; exact List.drop_left' (toHexFixed_length (2 * alen) addr)
  have e3 : ((rest.drop 2).drop (2 * alen)).take (rest.length - 2 * alen - 4) =
      hexlify dat := by
    rw [ed2a, show rest.length - 2 * alen - 4 = 2 * dat.length from by omega]
    exact List.take_left' (hexlify_length dat)
  have e4 : rest.drop (rest.length - 2) = toHexFixed 2 ck := by
    have hr2 : rest = (toHexFixed 2 (alen + dat.length + 1) ++
        (toHexFixed (2 * alen) addr ++ hexlify dat)) ++ toHexFixed 2 ck := by
      rw [hrest]; simp [List.append_assoc]
    rw [show rest.length - 2 = 2 + 2 * alen + 2 * dat.length from by omega, hr2]
    apply List.drop_left'
    simp only [List.length_append, toHexFixed_length, hexlify_length]
    omega
  rw [Mot.parse, pyStrip_eq_self _ hns]
  simp only []
  rw [if_pos ⟨trivial, by omega, by omega, by omega, by omega, by omega⟩]
  rw [e1, parseHex_toHexFixed 2 (alen + dat.length + 1) (by rw [h16_2]; omega)]
  simp only []
  rw [if_pos (by omega)]
  rw [htd, show 48 + t - 48 = t from by omega, htal]
  simp only [Option.getD_some]
  rw [e2, e3, e4, parseHex_toHexFixed (2 * alen) addr haddr,
    parseHex_toHexFixed 2 ck (by rw [h16_2]; exact hck),
    unhexlify_hexlify dat hbytes]

/-- Parsing back a well-formed Motorola record line for a tag without an
address field (tags 4-6) yields the record built from the rendered fields. -/
theorem Mot.parse_marshal_aux_none (t : Nat) (dat : List Nat) (ck : Nat)
    (htal : tagToAddressLength t = none) (ht : t ≤ 9)
    (hlo : 2 ≤ dat.length) (hhi : dat.length + 1 ≤ 139)
    (hck : ck < 256) (hbytes : ∀ b ∈ dat, b < 256) :
    Mot.parse ('S' :: toHexDigit t :: (toHexFixed 2 (dat.length + 1) ++
      (hexlify dat ++ toHexFixed 2 ck))) = .ok (Mot.make 0 t dat (.given ck)) := by
  have h16_2 : (16 : Nat) ^ 2 = 256 := by norm_num
  have htd : (toHexDigit t).toNat = 48 + t := toHexDigit_toNat t (by omega)
  set rest := toHexFixed 2 (dat.length + 1) ++ (hexlify dat ++ toHexFixed 2 ck)
    with hrest
  have hns : ∀ c ∈ 'S' :: toHexDigit t :: rest, isPySpace c = false := by
    intro c hc
    rw [hrest] at hc
    rcases List.mem_cons.mp hc with h | h
    · subst h; decide
    · rcases List.mem_cons.mp h with h | h
      · subst h; exact toHexDigit_not_space t (by omega)
      · rcases List.mem_append.mp h with h | h
        · exact toHexFixed_not_space 2 (dat.length + 1) c h
        · rcases List.mem_append.mp h with h | h
          · exact hexlify_not_space dat c h
          · exact toHexFixed_not_space 2 ck c h
  have hlen : rest.length = 4 + 2 * dat.length := by
    rw [hrest]
    simp only [List.length_append, toHexFixed_length, hexlify_length]
    omega
  have e1 : rest.take 2 = toHexFixed 2 (dat.length + 1) := by
    rw [hrest]; exact List.take_left' (toHexFixed_length 2 _)
  have ed2 : rest.drop 2 = hexlify dat ++ toHexFixed 2 ck := by
    rw [hrest]; exact List.drop_left' (toHexFixed_length 2 _)
  have e3 : (rest.drop 2).take (rest.length - 4) = hexlify dat := by
    rw [ed2, show rest.length - 4 = 2 * dat.length from by omega]
    exact List.take_left' (hexlify_length dat)
  have e4 : rest.drop (rest.length - 2) = toHexFixed 2 ck := by
    have hr2 : rest = (toHexFixed 2 (dat.length + 1) ++ hexlify dat) ++
        toHexFixed 2 ck := by
      rw [hrest]; simp [List.append_assoc]
    rw [show rest.length - 2 = 2 + 2 * dat.length from by omega, hr2]
    apply List.drop_left'
    simp only [List.length_append, toHexFixed_length, hexlify_length]
  rw [Mot.parse, pyStrip_eq_self _ hns]
  simp only []
  rw [if_pos ⟨trivial, by omega, by omega, by omega, by omega, by omega⟩]
  rw [e1, parseHex_toHexFixed 2 (dat.length + 1) (by rw [h16_2]; omega)]
  simp only []
  rw [if_pos (by omega)]
  rw [htd, show 48 + t - 48 = t from by omega, htal]
  simp only [Option.getD_none, Nat.mul_zero, List.take_zero, List.drop_zero,
    Nat.sub_zero]
  rw [e3, e4, show parseHex ([] : List Char) = some 0 from rfl,
    parseHex_toHexFixed 2 ck (by rw [h16_2]; exact hck),
    unhexlify_hexlify dat hbytes]

/-- MOS records that pass `check()` survive the marshal/parse round-trip up to
record equality. -/
theorem Mos.roundtrip_mos (r : Rec) (hok : Mos.check r = .ok ())
    (hbytes : ∀ b ∈ r.data, b < 256) :
    ∃ r2, Mos.parse (Mos.marshal r) = .ok r2 ∧ recordEq r r2 = true := by
  obtain ⟨ha, htag, hcnt, hcl, hcks⟩ := Mos.check_ok_inv_mos r hok
  have hck : r.checksum.getD (Mos.computeChecksum r) < 65536 := by
    cases hc : r.checksum with
    | none => simpa using Mos.computeChecksum_lt_mos r ha
    | some c =>
      simp only [Option.getD_some]
      exact (hcks c hc).1
  refine ⟨Mos.make r.address r.data (.given (r.checksum.getD (Mos.computeChecksum r))),
    ?_, ?_⟩
  · rw [Mos.marshal]
    exact Mos.parse_marshal_aux_mos r.count r.address r.data _ hcnt ha hck hcl hbytes
  · simp [recordEq, Mos.make, Rec.make, htag]

/-- Intel HEX records that pass `check()` and whose address fits the 16-bit
offset field survive the marshal/parse round-trip up to record equality. -/
theorem Intel.roundtrip_intel (r : Rec) (hok : Intel.check r = .ok ())
    (hbytes : ∀ b ∈ r.data, b < 256) (ha : r.address < 65536) :
    ∃ r2, (Intel.marshal r).bind Intel.parse = .ok r2 ∧ recordEq r r2 = true := by
  obtain ⟨hbase, hcl, t, htag, ht5⟩ := Intel.check_ok_inv_intel r hok
  obtain ⟨htagb, hcntb, hcksb⟩ := baseCheck_ok_inv Intel.computeChecksum r hbase
  have hck : r.checksum.getD (Intel.computeChecksum r) < 256 := by
    cases hc : r.checksum with
    | none => simpa using Intel.computeChecksum_lt_intel r
    | some c =>
      simp only [Option.getD_some]
      have := (hcksb c hc).1
      omega
  have hmask : r.address &&& 0xFFFF = r.address := by
    rw [mask_lo16]
    omega
  refine ⟨Intel.make r.address t r.data
    (.given (r.checksum.getD (Intel.computeChecksum r))), ?_, ?_⟩
  · rw [Intel.marshal, hok]
    simp only [exceptBind_ok]
    rw [hmask, htag]
    simp only [Option.getD_some]
    exact Intel.parse_marshal_aux_intel r.address t r.data _ ha ht5 hck (by omega) hbytes
  · simp [recordEq, Intel.make, Rec.make, htag]

/-- Motorola records that pass `check()`, whose address fits the tag's address
field and whose count fits the line-length regex survive the marshal/parse
round-trip up to record equality. -/
theorem Mot.roundtrip_mot (r : Rec) (hok : Mot.check r = .ok ())
    (hbytes : ∀ b ∈ r.data, b < 256)
    (ha : r.address < 16 ^ (2 * (tagToAddressLength (r.tag.getD 0)).getD 0))
    (h3 : 3 ≤ r.count) (h139 : r.count ≤ 139) :
    ∃ r2, (Mot.marshal r).bind Mot.parse = .ok r2 ∧ recordEq r r2 = true := by
  obtain ⟨hbase, ⟨t, htag, ht9⟩, haddr0, hcc⟩ := Mot.check_ok_inv_mot r hok
  obtain ⟨htagb, hcntb, hcksb⟩ := baseCheck_ok_inv Mot.computeChecksum r hbase
  have hck : r.checksum.getD (Mot.computeChecksum r) < 256 := by
    cases hc : r.checksum with
    | none => simpa using Mot.computeChecksum_lt_mot r
    | some c =>
      simp only [Option.getD_some]
      have := (hcksb c hc).1
      omega
  rw [htag] at ha
  simp only [Option.getD_some] at ha
  refine ⟨Mot.make r.address t r.data
    (.given (r.checksum.getD (Mot.computeChecksum r))), ?_, ?_⟩
  · rw [Mot.marshal, hok]
    simp only [exceptBind_ok]
    rw [htag]
    simp only [Option.getD_some]
    cases htal : tagToAddressLength t with
    | none =>
      simp only []
      have ht456 : t = 4 ∨ t = 5 ∨ t = 6 := by
        interval_cases t <;> simp_all [tagToAddressLength]
      have haz : r.address = 0 := by
        apply haddr0
        rw [htag]
        simp only [Option.getD_some]
        omega
      have hccL : r.count = r.data.length + 1 := by
        rw [hcc, Mot.computeCount, htag]
        simp [htal]
      rw [haz]
      exact Mot.parse_marshal_aux_none t r.data _ htal ht9 (by omega) (by omega)
        hck hbytes
    | some alen =>
      simp only []
      rw [htal] at ha
      simp only [Option.getD_some] at ha
      have hccL : r.count = alen + r.data.length + 1 := by
        rw [hcc, Mot.computeCount, htag]
        simp [htal]
      exact Mot.parse_marshal_aux_mot t alen r.address r.data _ htal ht9 ha (by omega)
        hck hbytes
  · simp [recordEq, Mot.make, Rec.make, htag]

/-! ## Claim C3 -/

/-- C3 counterexample: an Intel HEX record at address `0x10000` with one data
byte passes `check()`, but `__str__` truncates the address to its low 16 bits
(`(address or 0) & 0xFFFF`), so `parse_record(str(record))` returns a record
at address `0` that is not equal (by the library's record equality) to the
original.  The round-trip claim therefore fails for validly constructed
records whose address exceeds the 16-bit offset field. -/
theorem record_roundtrip_counterexample :
    Intel.check (Intel.make 65536 Intel.DATA [65] .auto) = .ok () ∧
    (Intel.marshal (Intel.make 65536 Intel.DATA [65] .auto)).bind Intel.parse =
      .ok (Intel.make 0 Intel.DATA [65] (.given 190)) ∧
    recordEq (Intel.make 65536 Intel.DATA [65] .auto)
      (Intel.make 0 Intel.DATA [65] (.given 190)) = false := by
  refine ⟨by decide, by decide, by decide⟩

/-- C3 (amended): `parse_record(marshal(r)) == r` (record equality) holds for
records passing `check()` whose rendered text is re-parseable: any MOS record;
Intel records whose address fits the 16-bit offset field; Motorola records
whose address fits the tag's address field and whose count field is between 3
and 139 (the `{4,140}` pair bound of the parsing regex).  The byte-range
hypothesis is Python's `bytes` invariant. -/
theorem record_roundtrip (r : Rec) :
    (Mos.check r = .ok () → (∀ b ∈ r.data, b < 256) →
      ∃ r2, Mos.parse (Mos.marshal r) = .ok r2 ∧ recordEq r r2 = true) ∧
    (Intel.check r = .ok () → (∀ b ∈ r.data, b < 256) → r.address < 65536 →
      ∃ r2, (Intel.marshal r).bind Intel.parse = .ok r2 ∧ recordEq r r2 = true) ∧
    (Mot.check r = .ok () → (∀ b ∈ r.data, b < 256) →
      r.address < 16 ^ (2 * (Mot.tagToAddressLength (r.tag.getD 0)).getD 0) →
      3 ≤ r.count → r.count ≤ 139 →
      ∃ r2, (Mot.marshal r).bind Mot.parse = .ok r2 ∧ recordEq r r2 = true) :=
  ⟨fun h hb => Mos.roundtrip_mos r h hb,
   fun h hb ha => Intel.roundtrip_intel r h hb ha,
   fun h hb ha h3 h9 => Mot.roundtrip_mot r h hb ha h3 h9⟩

/-- Witness for C3: the round-trip holds at a concrete valid record of each
of the three formats. -/
theorem record_roundtrip_witness :
    (∃ r2, Mos.parse (Mos.marshal (Mos.buildData 4660 [1, 2])) = .ok r2 ∧
      recordEq (Mos.buildData 4660 [1, 2]) r2 = true) ∧
    (∃ r2, (Intel.marshal (Intel.buildData 4660 [72])).bind Intel.parse = .ok r2 ∧
      recordEq (Intel.buildData 4660 [72]) r2 = true) ∧
    (∃ r2, (Mot.marshal (Mot.make 4660 1 [72] .auto)).bind Mot.parse = .ok r2 ∧
      recordEq (Mot.make 4660 1 [72] .auto) r2 = true) := by
  refine ⟨(record_roundtrip (Mos.buildData 4660 [1, 2])).1 (by decide) (by decide),
    (record_roundtrip (Intel.buildData 4660 [72])).2.1 (by decide) (by decide)
      (by decide),
    (record_roundtrip (Mot.make 4660 1 [72] .auto)).2.2 (by decide) (by decide)
      (by decide) (by decide) (by decide)⟩

end Hexrec
